import Mathlib

/-!
# Translation rules (`trule.h`): substitution and derived accessors

A shallow embedding of the inline part of `class TRule` and the properties of
its substitution engine and accessors.

Modelling conventions.
* `WordID` is the interner's `int`; it is embedded as `Int`. The only arithmetic
  on symbols is the test `c < 1` and the negation `-c` of a non-positive symbol.
* `std::vector<WordID>` is a `List WordID`; `size()` is `List.length`, and the
  `int` returned by `ELength`/`FLength` is that length read as an integer.
* `var_values` is a vector of pointers to vectors; the pointers are taken to be
  valid and not to alias `*result`, so the bindings are a `List (List WordID)`.
* `var_values[k]` with `k` outside the vector, and a failed `assert`, are the
  two ways a substitution does not return; they are the two `SubstFault`s.
* Members with no initialiser in a constructor (`arity_` is a plain `char`)
  hold an indeterminate value, passed to the constructor explicitly.
* `CreateRuleSynchronous`, `ComputeArity` and `SanityCheck` are only declared in
  `trule.h`; they are modelled from the specification of the format parsers.
-/

namespace Cdec

/-- Symbols: `typedef int WordID` of `wordid.h`. -/
abbrev WordID := Int

/-- Translation rule: the data members of `class TRule`, in declaration order.
`SparseVector` stands for `SparseVector<double>` of `sparse_vector.h`;
`parent_rule_` is a shared pointer, `none` being `NULL`. -/
structure TRule (SparseVector : Type) where
  e_ : List WordID
  f_ : List WordID
  lhs_ : WordID
  scores_ : SparseVector
  arity_ : Int
  parent_rule_ : Option Nat
  prev_i : Int
  prev_j : Int

/-- The two ways `ESubstitute` / `FSubstitute` do not return an output:
an access `var_values[k]` past the end of the vector, or the final
`assert(vc == var_values.size())` not holding. -/
inductive SubstFault where
  | outOfRange
  | assertFailed
  deriving DecidableEq

/-- Local state of the substitution loops: the counter `vc`, the contents of
`*result`, and, as a ghost field, the indices at which `var_values` has been
read so far (in order). -/
structure Scan where
  vc : Nat
  result : List WordID
  reads : List Nat
  deriving DecidableEq

section Substitution

variable {SparseVector : Type}

/-- Vector `clear()`: whatever the vector held, it is empty afterwards. -/
def vector_clear (_v : List WordID) : List WordID := []

/-- The `for` loop of `TRule::ESubstitute` over the remaining symbols of `e_`. -/
def ESubstituteLoop (var_values : List (List WordID)) :
    List WordID → Scan → Except SubstFault Scan
  | [], s => .ok s
  | c :: rest, s =>
    if c < 1 then
      match var_values[(-c).toNat]? with
      | none => .error .outOfRange
      | some var_value =>
        ESubstituteLoop var_values rest
          ⟨s.vc + 1, s.result ++ var_value, s.reads ++ [(-c).toNat]⟩
    else
      ESubstituteLoop var_values rest ⟨s.vc, s.result ++ [c], s.reads⟩

/-- The body of `TRule::ESubstitute`: `vc = 0`, `result->clear()`, the loop,
then the assertion. -/
def ESubstituteScan (r : TRule SparseVector) (var_values : List (List WordID))
    (result : List WordID) : Except SubstFault Scan :=
  match ESubstituteLoop var_values r.e_ ⟨0, vector_clear result, []⟩ with
  | .error e => .error e
  | .ok s => if s.vc = var_values.length then .ok s else .error .assertFailed

/-- Method `TRule::ESubstitute`: the contents of `*result` on return. -/
def ESubstitute (r : TRule SparseVector) (var_values : List (List WordID))
    (result : List WordID) : Except SubstFault (List WordID) :=
  (ESubstituteScan r var_values result).map Scan.result

/-- The loop of `TRule::FSubstitute` over the remaining symbols of `f_`. -/
def FSubstituteLoop (var_values : List (List WordID)) :
    List WordID → Scan → Except SubstFault Scan
  | [], s => .ok s
  | c :: rest, s =>
    if c < 1 then
      match var_values[s.vc]? with
      | none => .error .outOfRange
      | some var_value =>
        FSubstituteLoop var_values rest
          ⟨s.vc + 1, s.result ++ var_value, s.reads ++ [s.vc]⟩
    else
      FSubstituteLoop var_values rest ⟨s.vc, s.result ++ [c], s.reads⟩

/-- The body of `TRule::FSubstitute`. -/
def FSubstituteScan (r : TRule SparseVector) (var_values : List (List WordID))
    (result : List WordID) : Except SubstFault Scan :=
  match FSubstituteLoop var_values r.f_ ⟨0, vector_clear result, []⟩ with
  | .error e => .error e
  | .ok s => if s.vc = var_values.length then .ok s else .error .assertFailed

/-- Method `TRule::FSubstitute`: the contents of `*result` on return. -/
def FSubstitute (r : TRule SparseVector) (var_values : List (List WordID))
    (result : List WordID) : Except SubstFault (List WordID) :=
  (FSubstituteScan r var_values result).map Scan.result

end Substitution

section Accessors

variable {SparseVector : Type}

/-- Vector `resize(n, x)`: truncate to `n` elements or pad with `x`. -/
def resize (v : List WordID) (n : Nat) (x : WordID) : List WordID :=
  v.take n ++ List.replicate (n - v.length) x

/-- Constructor `TRule()`: `lhs_(0), prev_i(-1), prev_j(-1)`; the vectors, the score
vector and the parent pointer are default-constructed, and `arity_` has no
initialiser, so it keeps the indeterminate value `arity_indet`. -/
def TRule.ctor [Inhabited SparseVector] (arity_indet : Int) : TRule SparseVector :=
  { e_ := [], f_ := [], lhs_ := 0, scores_ := default, arity_ := arity_indet,
    parent_rule_ := none, prev_i := -1, prev_j := -1 }

/-- Constructor `explicit TRule(const std::vector<WordID>& e)`:
`e_(e), lhs_(0), prev_i(-1), prev_j(-1)`. -/
def TRule.ctor_e [Inhabited SparseVector] (arity_indet : Int) (e : List WordID) :
    TRule SparseVector :=
  { e_ := e, f_ := [], lhs_ := 0, scores_ := default, arity_ := arity_indet,
    parent_rule_ := none, prev_i := -1, prev_j := -1 }

/-- Constructor
`TRule(const std::vector<WordID>& e, const std::vector<WordID>& f, const WordID& lhs)`:
`e_(e), f_(f), lhs_(lhs), prev_i(-1), prev_j(-1)`. -/
def TRule.ctor_e_f_lhs [Inhabited SparseVector] (arity_indet : Int)
    (e f : List WordID) (lhs : WordID) : TRule SparseVector :=
  { e_ := e, f_ := f, lhs_ := lhs, scores_ := default, arity_ := arity_indet,
    parent_rule_ := none, prev_i := -1, prev_j := -1 }

/-- Source: `bool Initialized() const { return e_.size(); }` -/
def Initialized (r : TRule SparseVector) : Bool :=
  r.e_.length != 0

/-- Source: `static TRule DummyRule()`: `TRule res; res.e_.resize(1, 0); return res;` -/
def DummyRule [Inhabited SparseVector] (arity_indet : Int) : TRule SparseVector :=
  let res : TRule SparseVector := TRule.ctor arity_indet
  { res with e_ := resize res.e_ 1 0 }

/-- Source: `int FLength() const { return f_.size(); }` -/
def FLength (r : TRule SparseVector) : Int := r.f_.length

/-- Source: `int ELength() const { return e_.size(); }` -/
def ELength (r : TRule SparseVector) : Int := r.e_.length

/-- Source: `int Arity() const { return arity_; }` -/
def Arity (r : TRule SparseVector) : Int := r.arity_

/-- Source: `int EWords() const { return ELength() - Arity(); }` -/
def EWords (r : TRule SparseVector) : Int := ELength r - Arity r

/-- Source: `int FWords() const { return FLength() - Arity(); }` -/
def FWords (r : TRule SparseVector) : Int := FLength r - Arity r

/-- Source: `bool IsUnary() const { return (Arity() == 1) && (f_.size() == 1); }` -/
def IsUnary (r : TRule SparseVector) : Bool :=
  (Arity r == 1) && (r.f_.length == 1)

/-- Source: `WordID GetLHS() const { return lhs_; }` -/
def GetLHS (r : TRule SparseVector) : WordID := r.lhs_

end Accessors

section Calls

variable {SparseVector : Type}

/-- A call `r.ESubstitute(var_values, &result)` as a step on the pair
(rule, contents of `*result`): the method is `const`, so the rule of the
post-state is the one of the pre-state. -/
def ESubstituteCall (s : TRule SparseVector × List WordID) (var_values : List (List WordID)) :
    Except SubstFault (TRule SparseVector × List WordID) :=
  (ESubstitute s.1 var_values s.2).map fun out => (s.1, out)

/-- A call `r.FSubstitute(var_values, &result)` as a step on the pair
(rule, contents of `*result`). -/
def FSubstituteCall (s : TRule SparseVector × List WordID) (var_values : List (List WordID)) :
    Except SubstFault (TRule SparseVector × List WordID) :=
  (FSubstitute s.1 var_values s.2).map fun out => (s.1, out)

end Calls

/-! ## Reference descriptions used in the statements -/

/-- A symbol is a placeholder when it is non-positive (`c < 1` in the source). -/
def isVar (c : WordID) : Bool := decide (c < 1)

/-- Number of non-positive symbols of a sequence. -/
def numVars (s : List WordID) : Nat := s.countP isVar

/-- By-value substitution as the target side describes it: each symbol
`c >= 1` stands for itself, each symbol `c < 1` for `bindings[-c]`. -/
def substByValue (bindings : List (List WordID)) (s : List WordID) : List WordID :=
  s.flatMap fun c => if c < 1 then bindings.getD (-c).toNat [] else [c]
/-- By-position substitution as the source side describes it: the symbol at
position `j` stands for itself when it is `>= 1`, and for `bindings[i]` when it
is non-positive, `i` being the number of non-positive symbols before
position `j`. -/
def substByPosition (bindings : List (List WordID)) (s : List WordID) : List WordID :=
  (List.range s.length).flatMap fun j =>
    if s.getD j 0 < 1 then bindings.getD (numVars (s.take j)) [] else [s.getD j 0]

/-- The same description started with `k` placeholders already consumed. -/
def substFrom (bindings : List (List WordID)) (k : Nat) (s : List WordID) : List WordID :=
  (List.range s.length).flatMap fun j =>
    if s.getD j 0 < 1 then bindings.getD (k + numVars (s.take j)) [] else [s.getD j 0]

/-- Two sequences that differ only in the values of their non-positive
symbols: same length, equal terminals at equal positions, placeholders at
the same positions. -/
def sameUpToVars (s t : List WordID) : Prop :=
  List.Forall₂ (fun a b => a = b ∨ (a < 1 ∧ b < 1)) s t

/-- The rule of the running example, `[X] ||| [X,1] DE [X,2] ||| [X,2] of the [X,1]`,
with `DE = 4`, `of = 5`, `the = 6` and `X = -1` as interned identifiers. -/
def exampleRule : TRule Unit :=
  { e_ := [-1, 5, 6, 0], f_ := [0, 4, 0], lhs_ := -1, scores_ := (), arity_ := 2,
    parent_rule_ := none, prev_i := -1, prev_j := -1 }

/-- The bindings of the running example: `casa = 7`, `grande = 8`. -/
def exampleBindings : List (List WordID) := [[7], [8]]

/-- Number of symbols `>= 1` (terminals) of a sequence. -/
def numWords (s : List WordID) : Nat := s.countP fun c => decide (1 ≤ c)

/-- Number of distinct non-positive values occurring in a sequence. -/
def numDistinctVars (s : List WordID) : Nat := (s.filter isVar).dedup.length

/-- The running example with other category labels on its source side:
it differs from `exampleRule` only in the values of non-positive symbols. -/
def exampleRuleRenamed : TRule Unit := { exampleRule with f_ := [-5, 4, -3] }

/-- A rule whose target names placeholder `0` twice. -/
def repeatedVarRule : TRule Unit :=
  { e_ := [0, 0], f_ := [0], lhs_ := -1, scores_ := (), arity_ := 1,
    parent_rule_ := none, prev_i := -1, prev_j := -1 }

/-- The rule `[X] ||| [X,1] ||| the [X,1]` with `the = 6`: one placeholder,
a one-symbol source and a two-symbol target. -/
def wideTargetRule : TRule Unit :=
  { e_ := [6, 0], f_ := [0], lhs_ := -1, scores_ := (), arity_ := 1,
    parent_rule_ := none, prev_i := -1, prev_j := -1 }

/-- A rule whose two sides are the same in-order sequence `[0, of, -1]`. -/
def inOrderRule : TRule Unit :=
  { e_ := [0, 5, -1], f_ := [0, 5, -1], lhs_ := -1, scores_ := (), arity_ := 2,
    parent_rule_ := none, prev_i := -1, prev_j := -1 }

/-- Bindings that give every placeholder encoding back: `bindings[k] = [-k]`
for `k < n`. -/
def selfBindings (n : Nat) : List (List WordID) :=
  (List.range n).map fun (k : Nat) => [-(k : Int)]

/-- Bindings that give the placeholders of a sequence back, in their order of
occurrence: `bindings[i] = [the i-th non-positive symbol]`. -/
def ownBindings (s : List WordID) : List (List WordID) :=
  (s.filter isVar).map fun c => [c]

/-- A rule whose target holds the placeholder `0` once and the stray
placeholder `-1`. -/
def strayVarRule : TRule Unit :=
  { e_ := [0, -1], f_ := [0, 0], lhs_ := -1, scores_ := (), arity_ := 2,
    parent_rule_ := none, prev_i := -1, prev_j := -1 }

/-- Total length of the bindings. -/
def bindingsLength (bindings : List (List WordID)) : Nat := (bindings.map List.length).sum

/-! ## The synchronous-rule parser, modelled from the specification

`CreateRuleSynchronous`, `ComputeArity` and `SanityCheck` are declared in
`trule.h` and defined elsewhere; they are modelled here from the description of
the format parsers. Text is processed as a list of characters. -/

/-- Modelled from the spec: the external collaborators of the parsers, which
are not part of `trule.h`: the symbol interner `string → Symbol` (a terminal is
a non-zero, non-negative identifier), the empty feature vector, and the reader
of the `name=value` feature section (it fails on a malformed entry). -/
structure Externals (SparseVector : Type) where
  convert : String → WordID
  convert_pos : ∀ w, 1 ≤ convert w
  emptyScores : SparseVector
  parseFeatures : List String → Option SparseVector

/-- Modelled from the spec: a token of a rule side, either a plain terminal or
a bracketed category with its binding index, as in `[X,2]`. -/
inductive Token where
  | word (w : String)
  | nt (cat : String) (index : Nat)
  deriving DecidableEq

/-- Modelled from the spec: tokenisation of a line at blanks; empty tokens are
dropped. The pair holds the token being read and the tokens after it. -/
def splitWordsAux : List Char → List Char × List (List Char)
  | [] => ([], [])
  | c :: cs =>
    let acc := splitWordsAux cs
    if c = ' ' then
      ([], if acc.1 = [] then acc.2 else acc.1 :: acc.2)
    else (c :: acc.1, acc.2)

/-- Modelled from the spec: the tokens of a line. -/
def splitWords (cs : List Char) : List (List Char) :=
  let acc := splitWordsAux cs
  if acc.1 = [] then acc.2 else acc.1 :: acc.2

/-- Modelled from the spec: the sections of a tokenised line, cut at each
three-character separator `|||`. -/
def splitSections : List (List Char) → List (List (List Char))
  | [] => [[]]
  | w :: ws =>
    if w = ['|', '|', '|'] then [] :: splitSections ws
    else
      match splitSections ws with
      | [] => [[w]]
      | s :: ss => (w :: s) :: ss

/-- Modelled from the spec: a token is a bracketed category when it opens with
`[` and closes with `]`. -/
def isBracketed (w : List Char) : Bool :=
  decide (2 ≤ w.length) && (w.head? == some '[') && (w.getLast? == some ']')

/-- Modelled from the spec: a decimal index annotation. -/
def parseIndex (ds : List Char) : Option Nat :=
  if ds = [] then none
  else ds.foldl
    (fun acc c => acc.bind fun n => if c.isDigit then some (10 * n + (c.toNat - 48)) else none)
    (some 0)

/-- Modelled from the spec: the inside of a bracketed token, cut at its comma:
the category and what follows the comma, if there is one. -/
def bracketBody (w : List Char) : List Char × Option (List Char) :=
  match (w.drop 1).dropLast.span (fun c => c != ',') with
  | (cat, []) => (cat, none)
  | (cat, _ :: ds) => (cat, some ds)

/-- Modelled from the spec: reading one token of a side of a synchronous rule.
A bracketed token is a placeholder and must carry an explicit binding index;
any other token is a terminal. -/
def readToken (w : List Char) : Option Token :=
  if isBracketed w then
    match bracketBody w with
    | (_, none) => none
    | (cat, some ds) => (parseIndex ds).map (Token.nt (String.mk cat))
  else some (Token.word (String.mk w))

/-- Modelled from the spec: reading a whole side; one unreadable token fails
the side. -/
def readSide : List (List Char) → Option (List Token)
  | [] => some []
  | w :: ws =>
    match readToken w, readSide ws with
    | some t, some ts => some (t :: ts)
    | _, _ => none

/-- Modelled from the spec: the left-hand side is one bracketed category. -/
def readLHS : List (List Char) → Option String
  | [w] =>
    if isBracketed w then
      match bracketBody w with
      | (cat, none) => some (String.mk cat)
      | (_, some _) => none
    else none
  | _ => none

/-- Modelled from the spec: the binding indices written on the placeholders of
a side, left to right. -/
def indicesOf : List Token → List Nat
  | [] => []
  | Token.word _ :: ts => indicesOf ts
  | Token.nt _ k :: ts => k :: indicesOf ts

/-- Modelled from the spec: the 0-based position, among the placeholders of the
source side, of the one declared with index `k`. -/
def declaredPosition (k : Nat) : List Nat → Option Nat
  | [] => none
  | d :: ds => if d = k then some 0 else (declaredPosition k ds).map (· + 1)

/-- Modelled from the spec: the source sequence. A terminal is its interned
identifier; a placeholder is the negated identifier of its category (the
comment on `f_`: `< 0: *-1 = encoding of category of variable`). -/
def encodeSource {SparseVector : Type} (ext : Externals SparseVector) : List Token → List WordID
  | [] => []
  | Token.word w :: ts => ext.convert w :: encodeSource ext ts
  | Token.nt cat _ :: ts => -(ext.convert cat) :: encodeSource ext ts

/-- Modelled from the spec: the target sequence. A placeholder is re-encoded by
the source-side index it names: it becomes `-p`, `p` being the 0-based position
of the source placeholder declared with that index; an index that the source
side does not declare fails the parse. -/
def encodeTarget {SparseVector : Type} (ext : Externals SparseVector) (declared : List Nat) :
    List Token → Option (List WordID)
  | [] => some []
  | Token.word w :: ts => (encodeTarget ext declared ts).map (ext.convert w :: ·)
  | Token.nt _ k :: ts =>
    match declaredPosition k declared, encodeTarget ext declared ts with
    | some p, some e => some (-(p : Int) :: e)
    | _, _ => none

/-- Modelled from the spec: `ComputeArity()`, declared in `trule.h` and defined
elsewhere: the arity is the number of non-positive symbols of the source side,
cached in `arity_`. -/
def ComputeArity {SparseVector : Type} (r : TRule SparseVector) : TRule SparseVector :=
  { r with arity_ := numVars r.f_ }

/-- Modelled from the spec: `SanityCheck()`, declared in `trule.h` and defined
elsewhere: the arity computed from the source side equals the one computed from
the target side, every placeholder encoding of the target lies in
`[-(arity-1), 0]`, and the left-hand side, when present, is not a terminal. -/
def SanityCheck {SparseVector : Type} (r : TRule SparseVector) : Bool :=
  decide (r.arity_ = (numVars r.e_ : Int))
    && r.e_.all (fun c => decide (c < 1 → -(r.arity_ - 1) ≤ c))
    && decide (r.lhs_ < 1)

/-- Modelled from the spec: the feature section; when the line has none the
feature vector is empty. -/
def readFeatures {SparseVector : Type} (ext : Externals SparseVector) :
    Option (List (List Char)) → Option SparseVector
  | none => some ext.emptyScores
  | some ws => ext.parseFeatures (ws.map String.mk)

/-- Modelled from the spec: building the rule from the sections of a
synchronous rule line: read the sides, re-encode the target by
cross-reference, compute the arity, check that every declared source index is
named by the target, and run the sanity check. -/
def buildSynchronous {SparseVector : Type} (ext : Externals SparseVector)
    (lhsW srcW tgtW : List (List Char)) (featW : Option (List (List Char))) :
    Option (TRule SparseVector) :=
  match readLHS lhsW, readSide srcW, readSide tgtW, readFeatures ext featW with
  | some lhs, some src, some tgt, some scores =>
    match encodeTarget ext (indicesOf src) tgt with
    | none => none
    | some e =>
      let r : TRule SparseVector := ComputeArity
        { e_ := e, f_ := encodeSource ext src, lhs_ := -(ext.convert lhs), scores_ := scores,
          arity_ := 0, parent_rule_ := none, prev_i := -1, prev_j := -1 }
      if (indicesOf src).all (fun k => decide (k ∈ indicesOf tgt)) && SanityCheck r then some r
      else none
  | _, _, _, _ => none

/-- Modelled from the spec: `CreateRuleSynchronous`, declared in `trule.h` and
defined elsewhere. The line has the shape `LHS ||| SRC ||| TGT [||| FEATS]`;
the result is the rule, or `none` (the `NULL` of the source) when the line is
malformed. -/
def CreateRuleSynchronous {SparseVector : Type} (ext : Externals SparseVector)
    (rule : String) : Option (TRule SparseVector) :=
  match splitSections (splitWords rule.toList) with
  | [lhsW, srcW, tgtW] => buildSynchronous ext lhsW srcW tgtW none
  | [lhsW, srcW, tgtW, featW] => buildSynchronous ext lhsW srcW tgtW (some featW)
  | _ => none

/-- The identifiers of the running example: `X = 1`, `DE = 4`, `of = 5`,
`the = 6`, every other word `9`. -/
def exampleConvert (w : String) : WordID :=
  if w = "X" then 1 else if w = "DE" then 4 else if w = "of" then 5
  else if w = "the" then 6 else 9

/-- Collaborators for the running example: the interner `exampleConvert`, and
a feature reader that accepts nothing. -/
def exampleExternals : Externals Unit :=
  { convert := exampleConvert
    convert_pos := fun w => by
      unfold exampleConvert
      split_ifs <;> decide
    emptyScores := ()
    parseFeatures := fun _ => none }

/-- The synchronous rule line of the running example. -/
def exampleLine : String := "[X] ||| [X,1] DE [X,2] ||| [X,2] of the [X,1]"

/-- The source words of a line: its second section. -/
def sourceWords (rule : String) : List (List Char) :=
  (splitSections (splitWords rule.toList)).getD 1 []

/-- The target words of a line: its third section. -/
def targetWords (rule : String) : List (List Char) :=
  (splitSections (splitWords rule.toList)).getD 2 []

/-- The binding indices written on the bracketed tokens of a side, left to
right, read from the words themselves. -/
def writtenIndices : List (List Char) → List Nat
  | [] => []
  | w :: ws =>
    match readToken w with
    | some (Token.nt _ k) => k :: writtenIndices ws
    | _ => writtenIndices ws

/-- A line whose target side is one placeholder short. -/
def shortTargetLine : String := "[X] ||| [X,1] DE [X,2] ||| [X,2] of the"

/-- A line whose target names the index 3, which its source does not declare. -/
def undeclaredIndexLine : String := "[X] ||| [X,1] DE [X,2] ||| [X,3] of the [X,1]"

/-- The encoding the text of a target token announces: a terminal is its
interned identifier, a placeholder written with index `k` is `-(k-1)`. -/
def writtenEncoding {SparseVector : Type} (ext : Externals SparseVector) : Token → WordID
  | Token.word w => ext.convert w
  | Token.nt _ k => -((k : Int) - 1)

/-- A well-formed synchronous rule line with `n` placeholders, read as the
sides `src` and `tgt`: three or four sections, a bracketed left-hand side, two
readable sides, source placeholders declared with the indices `1, ..., n` in
this order, target placeholders naming each of these indices once, and a
readable feature section when there is one. -/
def WellFormedSynchronous {SparseVector : Type} (ext : Externals SparseVector)
    (rule : String) (n : Nat) (src tgt : List Token) : Prop :=
  ∃ (lhsW srcW tgtW : List (List Char)) (featW : Option (List (List Char))),
    splitSections (splitWords rule.toList) = lhsW :: srcW :: tgtW :: featW.toList
      ∧ (readLHS lhsW).isSome = true
      ∧ readSide srcW = some src
      ∧ readSide tgtW = some tgt
      ∧ (readFeatures ext featW).isSome = true
      ∧ indicesOf src = List.range' 1 n
      ∧ (indicesOf tgt).Perm (List.range' 1 n)

/-! ## Arithmetic and list facts -/

theorem toNat_neg_lt (c : Int) (n : Nat) (hc : c < 1) (h : -c < (n : Int)) :
    (-c).toNat < n := by omega

theorem not_toNat_neg_lt (c : Int) (n : Nat) (h : (n : Int) ≤ -c) :
    ¬ (-c).toNat < n := by omega

theorem toNat_neg_eq_iff (c : Int) (k : Nat) (hc : c < 1) :
    (-c).toNat = k ↔ c = -(k : Int) := by omega

theorem numVars_nil : numVars [] = 0 := rfl

theorem numVars_cons (c : WordID) (s : List WordID) :
    numVars (c :: s) = numVars s + (if c < 1 then 1 else 0) := by
  simp [numVars, isVar, List.countP_cons]

theorem substByValue_cons (bs : List (List WordID)) (c : WordID) (s : List WordID) :
    substByValue bs (c :: s)
      = (if c < 1 then bs.getD (-c).toNat [] else [c]) ++ substByValue bs s := by
  simp [substByValue, List.flatMap_cons]

theorem substFrom_nil (bs : List (List WordID)) (k : Nat) : substFrom bs k [] = [] := by
  simp [substFrom]

theorem substFrom_cons (bs : List (List WordID)) (k : Nat) (c : WordID) (s : List WordID) :
    substFrom bs k (c :: s)
      = (if c < 1 then bs.getD k [] else [c])
          ++ substFrom bs (k + if c < 1 then 1 else 0) s := by
  simp only [substFrom, List.length_cons, List.range_succ_eq_map, List.flatMap_cons,
    List.flatMap_map, List.getD_cons_zero, List.take_zero, List.getD_cons_succ,
    List.take_succ_cons, numVars_cons]
  congr 1
  congr 1
  funext j
  by_cases hc : c < 1 <;> simp [hc, numVars, Nat.add_comm, Nat.add_left_comm]

theorem substFrom_zero (bs : List (List WordID)) (s : List WordID) :
    substFrom bs 0 s = substByPosition bs s := by
  simp [substFrom, substByPosition]

theorem length_eq_numWords_add_numVars (s : List WordID) :
    s.length = numWords s + numVars s := by
  induction s with
  | nil => rfl
  | cons c rest ih =>
    by_cases hc : c < 1
    · have h1 : ¬ (1 ≤ c) := not_le.2 hc
      simp [numWords, numVars, isVar, List.countP_cons, hc, h1] at ih ⊢
      omega
    · have h1 : 1 ≤ c := not_lt.1 hc
      simp [numWords, numVars, isVar, List.countP_cons, hc, h1] at ih ⊢
      omega

/-! ## The two loops, characterised -/

theorem ESubstituteLoop_inRange (bs : List (List WordID)) :
    ∀ (e : List WordID) (s : Scan), (∀ c ∈ e, c < 1 → -c < (bs.length : Int)) →
      ESubstituteLoop bs e s
        = .ok ⟨s.vc + numVars e, s.result ++ substByValue bs e,
            s.reads ++ (e.filter isVar).map fun c => (-c).toNat⟩ := by
  intro e
  induction e with
  | nil => intro s _; simp [ESubstituteLoop, numVars, substByValue]
  | cons c rest ih =>
    intro s h
    have hrest : ∀ c ∈ rest, c < 1 → -c < (bs.length : Int) :=
      fun d hd => h d (List.mem_cons_of_mem c hd)
    by_cases hc : c < 1
    · have hlt : (-c).toNat < bs.length :=
        toNat_neg_lt c bs.length hc (h c (List.mem_cons_self c rest) hc)
      simp only [ESubstituteLoop, if_pos hc, List.getElem?_eq_getElem hlt]
      rw [ih _ hrest, numVars_cons, substByValue_cons, if_pos hc, if_pos hc]
      simp [isVar, hc, List.getD_eq_getElem?_getD, List.getElem?_eq_getElem hlt, Nat.add_comm,
        Nat.add_left_comm]
    · simp only [ESubstituteLoop, if_neg hc]
      rw [ih _ hrest, numVars_cons, substByValue_cons, if_neg hc, if_neg hc]
      simp [isVar, hc]

theorem ESubstituteLoop_outOfRange (bs : List (List WordID)) :
    ∀ (e : List WordID) (s : Scan), (∃ c ∈ e, c < 1 ∧ (bs.length : Int) ≤ -c) →
      ESubstituteLoop bs e s = .error .outOfRange := by
  intro e
  induction e with
  | nil => intro s h; simp at h
  | cons c rest ih =>
    intro s h
    by_cases hc : c < 1
    · by_cases hlt : (-c).toNat < bs.length
      · have hrest : ∃ d ∈ rest, d < 1 ∧ (bs.length : Int) ≤ -d := by
          obtain ⟨d, hd, hd1, hd2⟩ := h
          rcases List.mem_cons.1 hd with rfl | hd
          · exact absurd hlt (not_toNat_neg_lt d bs.length hd2)
          · exact ⟨d, hd, hd1, hd2⟩
        simp only [ESubstituteLoop, if_pos hc, List.getElem?_eq_getElem hlt]
        exact ih _ hrest
      · have : bs[(-c).toNat]? = none := List.getElem?_eq_none (Nat.le_of_not_lt hlt)
        simp only [ESubstituteLoop, if_pos hc, this]
    · have hrest : ∃ d ∈ rest, d < 1 ∧ (bs.length : Int) ≤ -d := by
        obtain ⟨d, hd, hd1, hd2⟩ := h
        rcases List.mem_cons.1 hd with rfl | hd
        · exact absurd hd1 hc
        · exact ⟨d, hd, hd1, hd2⟩
      simp only [ESubstituteLoop, if_neg hc]
      exact ih _ hrest

theorem FSubstituteLoop_inRange (bs : List (List WordID)) :
    ∀ (f : List WordID) (s : Scan), s.vc + numVars f ≤ bs.length →
      FSubstituteLoop bs f s
        = .ok ⟨s.vc + numVars f, s.result ++ substFrom bs s.vc f,
            s.reads ++ List.range' s.vc (numVars f)⟩ := by
  intro f
  induction f with
  | nil => intro s _; simp [FSubstituteLoop, numVars, substFrom_nil]
  | cons c rest ih =>
    intro s h
    rw [numVars_cons] at h
    by_cases hc : c < 1
    · rw [if_pos hc] at h
      have hlt : s.vc < bs.length := by omega
      simp only [FSubstituteLoop, if_pos hc, List.getElem?_eq_getElem hlt]
      rw [ih _ (by simp only []; omega), numVars_cons, substFrom_cons, if_pos hc]
      simp [hc, List.getD_eq_getElem?_getD, List.getElem?_eq_getElem hlt, Nat.add_comm,
        Nat.add_left_comm, List.range'_succ]
    · rw [if_neg hc] at h
      simp only [FSubstituteLoop, if_neg hc]
      rw [ih _ (by simpa using h), numVars_cons, substFrom_cons, if_neg hc]
      simp [hc]

theorem FSubstituteLoop_outOfRange (bs : List (List WordID)) :
    ∀ (f : List WordID) (s : Scan), bs.length < s.vc + numVars f → s.vc ≤ bs.length →
      FSubstituteLoop bs f s = .error .outOfRange := by
  intro f
  induction f with
  | nil => intro s h h2; simp [numVars] at h; omega
  | cons c rest ih =>
    intro s h h2
    rw [numVars_cons] at h
    by_cases hc : c < 1
    · rw [if_pos hc] at h
      by_cases hlt : s.vc < bs.length
      · simp only [FSubstituteLoop, if_pos hc, List.getElem?_eq_getElem hlt]
        exact ih _ (by simp only []; omega) (by simp only []; omega)
      · have : bs[s.vc]? = none := List.getElem?_eq_none (Nat.le_of_not_lt hlt)
        simp only [FSubstituteLoop, if_pos hc, this]
    · rw [if_neg hc] at h
      simp only [FSubstituteLoop, if_neg hc]
      exact ih _ (by simpa using h) (by simpa using h2)

theorem FSubstituteLoop_sameUpToVars (bs : List (List WordID)) (f g : List WordID)
    (h : sameUpToVars f g) : ∀ s : Scan, FSubstituteLoop bs g s = FSubstituteLoop bs f s := by
  unfold sameUpToVars at h
  induction h with
  | nil => intro s; rfl
  | @cons a b l₁ l₂ hab _ ih =>
    intro s
    rcases hab with rfl | ⟨ha, hb⟩
    · by_cases ha : a < 1
      · simp only [FSubstituteLoop, if_pos ha]
        cases bs[s.vc]? with
        | none => rfl
        | some v => exact ih _
      · simp only [FSubstituteLoop, if_neg ha]
        exact ih _
    · simp only [FSubstituteLoop, if_pos ha, if_pos hb]
      cases bs[s.vc]? with
      | none => rfl
      | some v => exact ih _

/-! ## Counting the reads of the target-side scan -/

theorem neg_natCast_lt_one (c : Int) (k : Nat) (h : c = -(k : Int)) : c < 1 := by omega

theorem count_reads_eq (e : List WordID) (k : Nat) :
    ((e.filter isVar).map fun c => (-c).toNat).count k = e.count (-(k : Int)) := by
  induction e with
  | nil => simp
  | cons c rest ih =>
    by_cases hc : c < 1
    · have hv : isVar c = true := by simp [isVar, hc]
      rw [List.filter_cons_of_pos hv, List.map_cons, List.count_cons, List.count_cons, ih]
      have := toNat_neg_eq_iff c k hc
      by_cases hk : c = -(k : Int)
      · simp [hk]
      · have hk2 : ¬ (-c).toNat = k := fun h => hk (this.1 h)
        simp [hk, hk2]
    · have hv : ¬ isVar c = true := by simp [isVar, hc]
      rw [List.filter_cons_of_neg hv, List.count_cons, ih]
      have hk : ¬ c = -(k : Int) := fun h => hc (neg_natCast_lt_one c k h)
      simp [hk]

theorem length_eq_of_count (l : List Nat) (n : Nat) (h1 : ∀ k, k < n → l.count k = 1)
    (h2 : ∀ a ∈ l, a < n) : l.length = n := by
  have hp : l.Perm (List.range n) := by
    rw [List.perm_iff_count]
    intro a
    rw [List.count_eq_of_nodup (List.nodup_range n)]
    by_cases ha : a < n
    · simp [ha, h1 a ha]
    · have : a ∉ l := fun hm => ha (h2 a hm)
      simp [ha, List.count_eq_zero_of_not_mem this]
  simpa using hp.length_eq

theorem numVars_eq_of_each_once (e : List WordID) (n : Nat)
    (h1 : ∀ k : Nat, k < n → e.count (-(k : Int)) = 1)
    (h2 : ∀ c ∈ e, c < 1 → -c < (n : Int)) : numVars e = n := by
  have hlen : numVars e = ((e.filter isVar).map fun c => (-c).toNat).length := by
    simp [numVars, List.countP_eq_length_filter]
  rw [hlen]
  apply length_eq_of_count
  · intro k hk
    rw [count_reads_eq]
    exact h1 k hk
  · intro a ha
    obtain ⟨c, hc, rfl⟩ := List.mem_map.1 ha
    have hc1 : c ∈ e := (List.mem_filter.1 hc).1
    have hc2 : c < 1 := by simpa [isVar] using (List.mem_filter.1 hc).2
    exact toNat_neg_lt c n hc2 (h2 c hc1 hc2)

/-! ## The two operations, characterised -/

section Characterisation

variable {SparseVector : Type}

theorem ESubstituteScan_inRange (r : TRule SparseVector) (bs : List (List WordID))
    (out : List WordID) (h : ∀ c ∈ r.e_, c < 1 → -c < (bs.length : Int)) :
    ESubstituteScan r bs out
      = if numVars r.e_ = bs.length then
          .ok ⟨numVars r.e_, substByValue bs r.e_, (r.e_.filter isVar).map fun c => (-c).toNat⟩
        else .error .assertFailed := by
  simp [ESubstituteScan, vector_clear, ESubstituteLoop_inRange bs r.e_ _ h]

theorem ESubstituteScan_outOfRange (r : TRule SparseVector) (bs : List (List WordID))
    (out : List WordID) (h : ∃ c ∈ r.e_, c < 1 ∧ (bs.length : Int) ≤ -c) :
    ESubstituteScan r bs out = .error .outOfRange := by
  simp [ESubstituteScan, vector_clear, ESubstituteLoop_outOfRange bs r.e_ _ h]

theorem FSubstituteScan_eq (r : TRule SparseVector) (bs : List (List WordID))
    (out : List WordID) :
    FSubstituteScan r bs out
      = if numVars r.f_ = bs.length then
          .ok ⟨numVars r.f_, substByPosition bs r.f_, List.range (numVars r.f_)⟩
        else if numVars r.f_ < bs.length then .error .assertFailed
        else .error .outOfRange := by
  by_cases h : numVars r.f_ ≤ bs.length
  · have := FSubstituteLoop_inRange bs r.f_ ⟨0, [], []⟩ (by simpa using h)
    simp only [FSubstituteScan, vector_clear, this]
    by_cases h2 : numVars r.f_ = bs.length
    · simp [h2, substFrom_zero, List.range_eq_range']
    · have h3 : numVars r.f_ < bs.length := by omega
      simp [h2, h3]
  · have := FSubstituteLoop_outOfRange bs r.f_ ⟨0, [], []⟩ (by simp only []; omega)
      (by simp)
    simp only [FSubstituteScan, vector_clear, this]
    have h2 : ¬ numVars r.f_ = bs.length := by omega
    have h3 : ¬ numVars r.f_ < bs.length := by omega
    simp [h2, h3]

end Characterisation

/-! ## Substitution: contracts -/

section Claims

variable {SparseVector : Type}

/-- C1: `ESubstitute` computes the target-side substitution. Whenever every
non-positive symbol `c` of `e_` has `-c < bindings.size()` and the number of
non-positive symbols of `e_` equals `bindings.size()`, the call returns, and
the output is the concatenation, left to right over `e_`, of `[c]` for each
symbol `c >= 1` and of `bindings[-c]` for each symbol `c < 1`. -/
theorem ESubstitute_by_value (r : TRule SparseVector) (bindings : List (List WordID))
    (out : List WordID)
    (hrange : ∀ c ∈ r.e_, c < 1 → -c < (bindings.length : Int))
    (hcount : (r.e_.filter fun c => decide (c < 1)).length = bindings.length) :
    ESubstitute r bindings out
      = .ok (r.e_.flatMap fun c => if c < 1 then bindings.getD (-c).toNat [] else [c]) := by
  have hn : numVars r.e_ = bindings.length := by
    rw [← hcount]; simp [numVars, List.countP_eq_length_filter]; rfl
  rw [ESubstitute, ESubstituteScan_inRange r bindings out hrange, if_pos hn]
  rfl

/-- The example of C1: target `[-1, of, the, 0]` with bindings
`[[casa], [grande]]` gives `[grande, of, the, casa]`. -/
theorem ESubstitute_by_value_witness :
    (∀ c ∈ exampleRule.e_, c < 1 → -c < (exampleBindings.length : Int))
      ∧ (exampleRule.e_.filter fun c => decide (c < 1)).length = exampleBindings.length
      ∧ exampleRule.e_ = [-1, 5, 6, 0] ∧ exampleBindings = [[7], [8]]
      ∧ ESubstitute exampleRule exampleBindings [] = .ok [8, 5, 6, 7] :=
  ⟨by decide, by decide, rfl, rfl,
    ESubstitute_by_value exampleRule exampleBindings [] (by decide) (by decide)⟩

/-- C2: `FSubstitute` binds by position, not by value. For a source `f_` with
exactly `n` non-positive symbols and `n` bindings, the call returns the
concatenation, left to right over `f_`, of `[c]` for each symbol `c >= 1` and
of `bindings[i]` for the `i`-th (0-based) non-positive symbol met; and any rule
whose source differs from `f_` only in the values of its non-positive symbols
gives that same output. -/
theorem FSubstitute_by_position (r : TRule SparseVector) (bindings : List (List WordID))
    (out : List WordID) (hcount : numVars r.f_ = bindings.length) :
    FSubstitute r bindings out = .ok (substByPosition bindings r.f_)
      ∧ ∀ r2 : TRule SparseVector, sameUpToVars r.f_ r2.f_ →
          FSubstitute r2 bindings out = .ok (substByPosition bindings r.f_) := by
  have h1 : FSubstitute r bindings out = .ok (substByPosition bindings r.f_) := by
    rw [FSubstitute, FSubstituteScan_eq, if_pos hcount]; rfl
  refine ⟨h1, fun r2 h => ?_⟩
  rw [← h1]
  simp only [FSubstitute, FSubstituteScan, FSubstituteLoop_sameUpToVars bindings r.f_ r2.f_ h]

/-- The sources `[0, DE, 0]` and `[-5, DE, -3]` with bindings
`[[casa], [grande]]` both give `[casa, DE, grande]`. -/
theorem FSubstitute_by_position_witness :
    numVars exampleRule.f_ = exampleBindings.length
      ∧ sameUpToVars exampleRule.f_ exampleRuleRenamed.f_
      ∧ FSubstitute exampleRule exampleBindings [] = .ok [7, 4, 8]
      ∧ FSubstitute exampleRuleRenamed exampleBindings [] = .ok [7, 4, 8] :=
  have hs : sameUpToVars exampleRule.f_ exampleRuleRenamed.f_ :=
    .cons (.inr ⟨by decide, by decide⟩) (.cons (.inl rfl)
      (.cons (.inr ⟨by decide, by decide⟩) .nil))
  ⟨by decide, hs,
    (FSubstitute_by_position exampleRule exampleBindings [] (by decide)).1,
    (FSubstitute_by_position exampleRule exampleBindings [] (by decide)).2
      exampleRuleRenamed hs⟩

theorem range_perm_of_count (l : List Nat) (n : Nat) (h1 : ∀ k, k < n → l.count k = 1)
    (h2 : ∀ a ∈ l, a < n) : l.Perm (List.range n) := by
  rw [List.perm_iff_count]
  intro a
  rw [List.count_eq_of_nodup (List.nodup_range n)]
  by_cases ha : a < n
  · simp [ha, h1 a ha]
  · have : a ∉ l := fun hm => ha (h2 a hm)
    simp [ha, List.count_eq_zero_of_not_mem this]

theorem flatMap_getD_range (bs : List (List WordID)) :
    (List.range bs.length).flatMap (fun i => bs.getD i []) = bs.flatten := by
  have h : (List.range bs.length).map (fun i => bs.getD i []) = bs := by
    apply List.ext_getElem
    · simp
    · intro i h1 h2
      have hi : i < bs.length := by simpa using h1
      simp [List.getD_eq_getElem?_getD, List.getElem?_eq_getElem, hi]
  rw [List.flatMap_def, h]

theorem substByValue_perm (bs : List (List WordID)) (e : List WordID) :
    (substByValue bs e).Perm
      ((e.filter fun c => decide (1 ≤ c))
        ++ ((e.filter isVar).map fun c => (-c).toNat).flatMap fun i => bs.getD i []) := by
  induction e with
  | nil => exact List.Perm.refl _
  | cons c rest ih =>
    rw [substByValue_cons]
    by_cases hc : c < 1
    · have h1 : ¬ (1 ≤ c) := not_le.2 hc
      have hv : isVar c = true := by simp [isVar, hc]
      rw [if_pos hc, List.filter_cons_of_neg (by simpa using h1), List.filter_cons_of_pos hv,
        List.map_cons, List.flatMap_cons]
      exact (List.Perm.append_left _ ih).trans (List.perm_append_comm_assoc _ _ _)
    · have h1 : 1 ≤ c := not_lt.1 hc
      have hv : ¬ isVar c = true := by simp [isVar, hc]
      rw [if_neg hc, List.filter_cons_of_pos (by simpa using h1), List.filter_cons_of_neg hv]
      exact List.Perm.cons c ih

theorem substFrom_perm (bs : List (List WordID)) :
    ∀ (f : List WordID) (k : Nat), k + numVars f ≤ bs.length →
      (substFrom bs k f).Perm
        ((f.filter fun c => decide (1 ≤ c)) ++ ((bs.drop k).take (numVars f)).flatten) := by
  intro f
  induction f with
  | nil => intro k _; simp [substFrom_nil, numVars]
  | cons c rest ih =>
    intro k h
    rw [numVars_cons] at h
    rw [substFrom_cons, numVars_cons]
    by_cases hc : c < 1
    · have h1 : ¬ (1 ≤ c) := not_le.2 hc
      simp only [if_pos hc] at h ⊢
      have hk : k < bs.length := by omega
      rw [List.filter_cons_of_neg (by simpa using h1), List.drop_eq_getElem_cons hk,
        List.take_succ_cons, List.flatten_cons, List.getD_eq_getElem?_getD,
        List.getElem?_eq_getElem hk, Option.getD_some]
      exact (List.Perm.append_left _ (ih (k + 1) (by omega))).trans
        (List.perm_append_comm_assoc _ _ _)
    · have h1 : 1 ≤ c := not_lt.1 hc
      simp only [if_neg hc, Nat.add_zero] at h ⊢
      rw [List.filter_cons_of_pos (by simpa using h1)]
      exact List.Perm.cons c (ih k h)

/-- C3: for a rule whose target contains each of `0, -1, ..., -(n-1)` exactly
once and no other non-positive symbol, whose source contains exactly `n`
non-positive symbols, and `n` bindings, both `ESubstitute` and `FSubstitute`
return: every index read is in range, the final assertion
`vc == bindings.size()` holds, and each binding is consumed exactly once by
each of the two scans. The indices read are those of the placeholders of the
side, in order, each index below `bindings.size()` once; the output is the
by-value (respectively by-position) substitution, and it is a rearrangement of
the terminals of the side followed by all the bindings, each once. -/
theorem substitute_consumes_each_binding_once (r : TRule SparseVector)
    (bindings : List (List WordID)) (out : List WordID) (n : Nat)
    (hE : ∀ k : Nat, k < n → r.e_.count (-(k : Int)) = 1)
    (hE2 : ∀ c ∈ r.e_, c < 1 → -c < (n : Int))
    (hF : numVars r.f_ = n)
    (hB : bindings.length = n) :
    ∃ se sf : Scan,
      ESubstituteScan r bindings out = .ok se ∧ ESubstitute r bindings out = .ok se.result
        ∧ FSubstituteScan r bindings out = .ok sf ∧ FSubstitute r bindings out = .ok sf.result
        ∧ se.vc = bindings.length ∧ sf.vc = bindings.length
        ∧ (∀ i ∈ se.reads, i < bindings.length) ∧ (∀ i ∈ sf.reads, i < bindings.length)
        ∧ (∀ k, k < bindings.length → se.reads.count k = 1)
        ∧ (∀ k, k < bindings.length → sf.reads.count k = 1)
        ∧ se.reads = ((r.e_.filter fun c => decide (c < 1)).map fun c => (-c).toNat)
        ∧ sf.reads = List.range bindings.length
        ∧ se.result
            = r.e_.flatMap (fun c => if c < 1 then bindings.getD (-c).toNat [] else [c])
        ∧ sf.result = substByPosition bindings r.f_
        ∧ se.result.Perm ((r.e_.filter fun c => decide (1 ≤ c)) ++ bindings.flatten)
        ∧ sf.result.Perm ((r.f_.filter fun c => decide (1 ≤ c)) ++ bindings.flatten) := by
  subst hB
  have hnE : numVars r.e_ = bindings.length := numVars_eq_of_each_once r.e_ _ hE hE2
  have hse := ESubstituteScan_inRange r bindings out hE2
  rw [if_pos hnE] at hse
  have hsf := FSubstituteScan_eq r bindings out
  rw [if_pos hF] at hsf
  have hin : ∀ i ∈ (r.e_.filter isVar).map (fun c => (-c).toNat), i < bindings.length := by
    intro i hi
    obtain ⟨c, hc, rfl⟩ := List.mem_map.1 hi
    have hc1 : c ∈ r.e_ := (List.mem_filter.1 hc).1
    have hc2 : c < 1 := by simpa [isVar] using (List.mem_filter.1 hc).2
    exact toNat_neg_lt c _ hc2 (hE2 c hc1 hc2)
  have hcount : ∀ k, k < bindings.length →
      ((r.e_.filter isVar).map (fun c => (-c).toNat)).count k = 1 := by
    intro k hk
    rw [count_reads_eq]
    exact hE k hk
  refine ⟨_, _, hse, ?_, hsf, ?_, hnE, hF, hin, ?_, hcount, ?_, rfl, ?_, rfl, rfl, ?_, ?_⟩
  · rw [ESubstitute, hse]; rfl
  · rw [FSubstitute, hsf]; rfl
  · intro i hi
    have := List.mem_range.1 hi
    omega
  · intro k hk
    apply List.count_eq_one_of_mem (List.nodup_range _)
    exact List.mem_range.2 (by omega)
  · show List.range (numVars r.f_) = List.range bindings.length
    rw [hF]
  · show (substByValue bindings r.e_).Perm _
    have hp := range_perm_of_count _ _ hcount hin
    have hfl := hp.flatMap_right fun i => bindings.getD i []
    rw [flatMap_getD_range] at hfl
    exact (substByValue_perm bindings r.e_).trans (List.Perm.append_left _ hfl)
  · show (substByPosition bindings r.f_).Perm _
    have hp := substFrom_perm bindings r.f_ 0 (by omega)
    rw [substFrom_zero, hF, List.drop_zero, List.take_length] at hp
    exact hp

/-- The running example, `n = 2`: both scans return, read the indices `0` and
`1` once each, and their outputs hold the terminals and both bindings. -/
theorem substitute_consumes_each_binding_once_witness :
    (∀ k : Nat, k < 2 → exampleRule.e_.count (-(k : Int)) = 1)
      ∧ (∀ c ∈ exampleRule.e_, c < 1 → -c < ((2 : Nat) : Int))
      ∧ numVars exampleRule.f_ = 2
      ∧ exampleBindings.length = 2
      ∧ ESubstituteScan exampleRule exampleBindings [] = .ok ⟨2, [8, 5, 6, 7], [1, 0]⟩
      ∧ FSubstituteScan exampleRule exampleBindings [] = .ok ⟨2, [7, 4, 8], [0, 1]⟩
      ∧ ∃ se sf : Scan,
      ESubstituteScan exampleRule exampleBindings [] = .ok se
        ∧ ESubstitute exampleRule exampleBindings [] = .ok se.result
        ∧ FSubstituteScan exampleRule exampleBindings [] = .ok sf
        ∧ FSubstitute exampleRule exampleBindings [] = .ok sf.result
        ∧ se.vc = exampleBindings.length ∧ sf.vc = exampleBindings.length
        ∧ (∀ i ∈ se.reads, i < exampleBindings.length)
        ∧ (∀ i ∈ sf.reads, i < exampleBindings.length)
        ∧ (∀ k, k < exampleBindings.length → se.reads.count k = 1)
        ∧ (∀ k, k < exampleBindings.length → sf.reads.count k = 1)
        ∧ se.reads = ((exampleRule.e_.filter fun c => decide (c < 1)).map fun c => (-c).toNat)
        ∧ sf.reads = List.range exampleBindings.length
        ∧ se.result
            = exampleRule.e_.flatMap
                (fun c => if c < 1 then exampleBindings.getD (-c).toNat [] else [c])
        ∧ sf.result = substByPosition exampleBindings exampleRule.f_
        ∧ se.result.Perm
            ((exampleRule.e_.filter fun c => decide (1 ≤ c)) ++ exampleBindings.flatten)
        ∧ sf.result.Perm
            ((exampleRule.f_.filter fun c => decide (1 ≤ c)) ++ exampleBindings.flatten) :=
  ⟨by decide, by decide, by decide, by decide, rfl, rfl,
    substitute_consumes_each_binding_once exampleRule exampleBindings [] 2
      (by decide) (by decide) (by decide) (by decide)⟩

/-- C4: supplying too few bindings fails. For a rule with `n >= 1`
placeholders on each side (target containing each of `0 .. -(n-1)` exactly
once, source containing exactly `n` non-positive symbols), a call of
`ESubstitute` or of `FSubstitute` with `n - 1` bindings stops at an
out-of-range access to the bindings and returns no output sequence. -/
theorem substitute_too_few_bindings_fails (r : TRule SparseVector)
    (bindings : List (List WordID)) (out : List WordID) (n : Nat)
    (hn : 1 ≤ n)
    (hE : ∀ k : Nat, k < n → r.e_.count (-(k : Int)) = 1)
    (hF : numVars r.f_ = n)
    (hB : bindings.length = n - 1) :
    ESubstitute r bindings out = .error .outOfRange
      ∧ FSubstitute r bindings out = .error .outOfRange
      ∧ (∀ o, ESubstitute r bindings out ≠ .ok o)
      ∧ (∀ o, FSubstitute r bindings out ≠ .ok o) := by
  have hmem : (-((n - 1 : Nat) : Int)) ∈ r.e_ := by
    have := hE (n - 1) (by omega)
    exact List.count_pos_iff.1 (by omega)
  have h1 : ESubstitute r bindings out = .error .outOfRange := by
    rw [ESubstitute, ESubstituteScan_outOfRange r bindings out
      ⟨_, hmem, neg_natCast_lt_one _ _ rfl, by rw [hB, neg_neg]⟩]
    rfl
  have h2 : FSubstitute r bindings out = .error .outOfRange := by
    have h3 : ¬ numVars r.f_ = bindings.length := by omega
    have h4 : ¬ numVars r.f_ < bindings.length := by omega
    rw [FSubstitute, FSubstituteScan_eq, if_neg h3, if_neg h4]
    rfl
  refine ⟨h1, h2, ?_, ?_⟩
  · intro o h; rw [h1] at h; cases h
  · intro o h; rw [h2] at h; cases h

/-- The running example (`n = 2`) with the single binding `[casa]`. -/
theorem substitute_too_few_bindings_fails_witness :
    1 ≤ 2
      ∧ (∀ k : Nat, k < 2 → exampleRule.e_.count (-(k : Int)) = 1)
      ∧ numVars exampleRule.f_ = 2
      ∧ [[(7 : WordID)]].length = 2 - 1
      ∧ ESubstitute exampleRule [[7]] [] = .error .outOfRange
      ∧ FSubstitute exampleRule [[7]] [] = .error .outOfRange
      ∧ (∀ o, ESubstitute exampleRule [[7]] [] ≠ .ok o)
      ∧ (∀ o, FSubstitute exampleRule [[7]] [] ≠ .ok o) :=
  ⟨by decide, by decide, by decide, by decide,
    substitute_too_few_bindings_fails exampleRule [[7]] [] 2
      (by decide) (by decide) (by decide) (by decide)⟩

/-- C5, as stated, fails: the target `[0, 0]` with the one binding `[casa]`
has every index in range and exactly one distinct placeholder, as many as
there are bindings, yet `ESubstitute` stops at its assertion (`vc` is 2). -/
theorem ESubstitute_distinct_count_counterexample :
    (∀ c ∈ repeatedVarRule.e_, c < 1 → -c < (([[7]] : List (List WordID)).length : Int))
      ∧ ESubstitute repeatedVarRule [[7]] [] = .error .assertFailed
      ∧ numDistinctVars repeatedVarRule.e_ = ([[7]] : List (List WordID)).length
      ∧ ¬ ((∃ err, ESubstitute repeatedVarRule [[7]] [] = .error err)
            ↔ numDistinctVars repeatedVarRule.e_ ≠ ([[7]] : List (List WordID)).length) := by
  refine ⟨by decide, rfl, by decide, ?_⟩
  intro h
  exact h.1 ⟨_, rfl⟩ (by decide)

/-- C5, amended: when every non-positive symbol `c` of `e_` has
`-c < bindings.size()`, `ESubstitute` fails if and only if the number of
non-positive symbols of `e_`, each occurrence counted, differs from
`bindings.size()`; the failure is then the assertion, and otherwise the call
returns the by-value substitution. -/
theorem ESubstitute_fails_iff_count (r : TRule SparseVector) (bindings : List (List WordID))
    (out : List WordID) (hrange : ∀ c ∈ r.e_, c < 1 → -c < (bindings.length : Int)) :
    ((∃ err, ESubstitute r bindings out = .error err) ↔ numVars r.e_ ≠ bindings.length)
      ∧ (numVars r.e_ ≠ bindings.length →
          ESubstitute r bindings out = .error .assertFailed)
      ∧ (numVars r.e_ = bindings.length →
          ESubstitute r bindings out = .ok (substByValue bindings r.e_)) := by
  have hs := ESubstituteScan_inRange r bindings out hrange
  have hne : numVars r.e_ ≠ bindings.length →
      ESubstitute r bindings out = .error .assertFailed := by
    intro h
    rw [ESubstitute, hs, if_neg h]; rfl
  have heq : numVars r.e_ = bindings.length →
      ESubstitute r bindings out = .ok (substByValue bindings r.e_) := by
    intro h
    rw [ESubstitute, hs, if_pos h]; rfl
  refine ⟨⟨?_, fun h => ⟨_, hne h⟩⟩, hne, heq⟩
  rintro ⟨err, herr⟩ h
  rw [heq h] at herr
  cases herr

/-- The target `[0, 0]` with one binding: two occurrences, one binding, and
the assertion stops the call. -/
theorem ESubstitute_fails_iff_count_witness :
    (∀ c ∈ repeatedVarRule.e_, c < 1 → -c < (([[7]] : List (List WordID)).length : Int))
      ∧ numVars repeatedVarRule.e_ ≠ ([[7]] : List (List WordID)).length
      ∧ ESubstitute repeatedVarRule [[7]] [] = .error .assertFailed :=
  ⟨by decide, by decide,
    (ESubstitute_fails_iff_count repeatedVarRule [[7]] [] (by decide)).2.1 (by decide)⟩

/-- C6: `ESubstitute` and `FSubstitute` clear the output before use and leave
the rule untouched. From any two initial contents of the output the two calls
have the same outcome (the same fault, or the same post-state), and in the
post-state of a call that returns the rule is the rule of the pre-state and
the output is the one obtained from an empty output. -/
theorem substitute_clears_output_and_keeps_rule (r : TRule SparseVector)
    (bindings : List (List WordID)) (out1 out2 : List WordID) :
    ESubstituteCall (r, out1) bindings = ESubstituteCall (r, out2) bindings
      ∧ FSubstituteCall (r, out1) bindings = FSubstituteCall (r, out2) bindings
      ∧ (∀ post, ESubstituteCall (r, out1) bindings = .ok post →
          post.1 = r ∧ ESubstitute r bindings [] = .ok post.2)
      ∧ (∀ post, FSubstituteCall (r, out1) bindings = .ok post →
          post.1 = r ∧ FSubstitute r bindings [] = .ok post.2) := by
  refine ⟨rfl, rfl, ?_, ?_⟩
  · intro post h
    simp only [ESubstituteCall] at h
    have hE : ESubstitute r bindings [] = ESubstitute r bindings out1 := rfl
    rw [hE]
    cases hr : ESubstitute r bindings out1 with
    | error e => rw [hr] at h; cases h
    | ok o =>
      rw [hr] at h
      cases h
      exact ⟨rfl, rfl⟩
  · intro post h
    simp only [FSubstituteCall] at h
    have hF : FSubstitute r bindings [] = FSubstitute r bindings out1 := rfl
    rw [hF]
    cases hr : FSubstitute r bindings out1 with
    | error e => rw [hr] at h; cases h
    | ok o =>
      rw [hr] at h
      cases h
      exact ⟨rfl, rfl⟩

/-- The running example called on the outputs `[1, 2, 3]` and `[9]`. -/
theorem substitute_clears_output_and_keeps_rule_witness :
    ESubstituteCall (exampleRule, [1, 2, 3]) exampleBindings = .ok (exampleRule, [8, 5, 6, 7])
      ∧ ESubstituteCall (exampleRule, [9]) exampleBindings = .ok (exampleRule, [8, 5, 6, 7])
      ∧ FSubstituteCall (exampleRule, [1, 2, 3]) exampleBindings = .ok (exampleRule, [7, 4, 8])
      ∧ (exampleRule, ([8, 5, 6, 7] : List WordID)).1 = exampleRule
      ∧ (exampleRule, ([7, 4, 8] : List WordID)).1 = exampleRule :=
  ⟨rfl, rfl, rfl,
    ((substitute_clears_output_and_keeps_rule exampleRule exampleBindings [1, 2, 3] [9]).2.2.1
      (exampleRule, [8, 5, 6, 7]) rfl).1,
    ((substitute_clears_output_and_keeps_rule exampleRule exampleBindings [1, 2, 3] [9]).2.2.2
      (exampleRule, [7, 4, 8]) rfl).1⟩

end Claims

/-! ## Accessors: contracts -/

section AccessorClaims

variable {SparseVector : Type}

/-- C7, as stated, fails: the rule with source `[0]` and target `[the, 0]`
has arity 1 and `IsUnary()` true, although its target has two symbols, a
terminal besides its placeholder. -/
theorem IsUnary_target_counterexample :
    IsUnary wideTargetRule = true ∧ Arity wideTargetRule = 1
      ∧ wideTargetRule.e_ = [6, 0]
      ∧ ¬ (IsUnary wideTargetRule = true →
            Arity wideTargetRule = 1 ∧ wideTargetRule.e_.length = 1) := by
  refine ⟨rfl, rfl, rfl, ?_⟩
  intro h
  exact absurd (h rfl).2 (by decide)

/-- C7, amended: `IsUnary()` is true only when `Arity()` is exactly 1 and the
sequence `f_` has exactly one symbol; in particular `IsUnary()` is false for
every rule whose `f_` contains a terminal in addition to a placeholder. -/
theorem IsUnary_only_if_f (r : TRule SparseVector) :
    (IsUnary r = true → Arity r = 1 ∧ r.f_.length = 1)
      ∧ ((∃ t ∈ r.f_, 1 ≤ t) → (∃ p ∈ r.f_, p < 1) → IsUnary r = false) := by
  constructor
  · intro h
    simpa [IsUnary] using h
  · rintro ⟨t, ht, ht1⟩ ⟨p, hp, hp1⟩
    have hne : r.f_.length ≠ 1 := by
      intro hlen
      obtain ⟨a, ha⟩ := List.length_eq_one.1 hlen
      rw [ha] at ht hp
      have h1 := List.mem_singleton.1 ht
      have h2 := List.mem_singleton.1 hp
      rw [h1] at ht1; rw [h2] at hp1
      exact absurd ht1 (not_le.2 hp1)
    simp [IsUnary, hne]

/-- A unary rule (`f_ = [0]`, arity 1) and the running example, whose `f_`
holds the terminal `DE` besides its placeholders. -/
theorem IsUnary_only_if_f_witness :
    IsUnary wideTargetRule = true
      ∧ Arity wideTargetRule = 1 ∧ wideTargetRule.f_.length = 1
      ∧ (∃ t ∈ exampleRule.f_, 1 ≤ t) ∧ (∃ p ∈ exampleRule.f_, p < 1)
      ∧ IsUnary exampleRule = false :=
  ⟨rfl, ((IsUnary_only_if_f wideTargetRule).1 rfl).1, ((IsUnary_only_if_f wideTargetRule).1 rfl).2,
    ⟨4, by decide, by decide⟩, ⟨0, by decide, by decide⟩,
    (IsUnary_only_if_f exampleRule).2 ⟨4, by decide, by decide⟩ ⟨0, by decide, by decide⟩⟩

/-- C8: `EWords` and `FWords` are terminal-only counts. For a rule whose cached
arity equals the number of non-positive symbols of `e_` (respectively `f_`),
`EWords()` (respectively `FWords()`) is the number of symbols `>= 1` of `e_`
(respectively `f_`), is non-negative, and is `ELength() - Arity()`
(respectively `FLength() - Arity()`). -/
theorem words_are_terminal_counts (r : TRule SparseVector) :
    (r.arity_ = (numVars r.e_ : Int) →
        EWords r = (numWords r.e_ : Int) ∧ 0 ≤ EWords r ∧ EWords r = ELength r - Arity r)
      ∧ (r.arity_ = (numVars r.f_ : Int) →
        FWords r = (numWords r.f_ : Int) ∧ 0 ≤ FWords r ∧ FWords r = FLength r - Arity r) := by
  constructor
  · intro h
    have hl := length_eq_numWords_add_numVars r.e_
    have hw : EWords r = (numWords r.e_ : Int) := by
      simp only [EWords, ELength, Arity, h, hl]
      push_cast
      ring
    exact ⟨hw, by rw [hw]; exact Int.ofNat_nonneg _, rfl⟩
  · intro h
    have hl := length_eq_numWords_add_numVars r.f_
    have hw : FWords r = (numWords r.f_ : Int) := by
      simp only [FWords, FLength, Arity, h, hl]
      push_cast
      ring
    exact ⟨hw, by rw [hw]; exact Int.ofNat_nonneg _, rfl⟩

/-- The running example: arity 2, `EWords() = 2` (`of`, `the`) and
`FWords() = 1` (`DE`). -/
theorem words_are_terminal_counts_witness :
    exampleRule.arity_ = (numVars exampleRule.e_ : Int)
      ∧ exampleRule.arity_ = (numVars exampleRule.f_ : Int)
      ∧ (EWords exampleRule = (numWords exampleRule.e_ : Int) ∧ 0 ≤ EWords exampleRule
          ∧ EWords exampleRule = ELength exampleRule - Arity exampleRule)
      ∧ (FWords exampleRule = (numWords exampleRule.f_ : Int) ∧ 0 ≤ FWords exampleRule
          ∧ FWords exampleRule = FLength exampleRule - Arity exampleRule)
      ∧ EWords exampleRule = 2 ∧ FWords exampleRule = 1 :=
  ⟨by decide, by decide, (words_are_terminal_counts exampleRule).1 (by decide),
    (words_are_terminal_counts exampleRule).2 (by decide), by decide, by decide⟩

/-- C9: `Initialized()` is true if and only if the target sequence `e_` is
non-empty; replacing the source sequence, the left-hand side, the features,
the arity, the parent or the span of a rule leaves it unchanged. -/
theorem Initialized_iff_target_nonempty (r : TRule SparseVector) :
    (Initialized r = true ↔ r.e_ ≠ [])
      ∧ ∀ (f : List WordID) (lhs : WordID) (scores : SparseVector) (arity : Int)
          (parent : Option Nat) (i j : Int),
          Initialized
            ({ e_ := r.e_, f_ := f, lhs_ := lhs, scores_ := scores, arity_ := arity,
               parent_rule_ := parent, prev_i := i, prev_j := j } : TRule SparseVector)
            = Initialized r := by
  constructor
  · cases h : r.e_ <;> simp [Initialized, h]
  · intros; rfl

/-- C10, as stated, fails: `TRule(e, f, lhs)` names no initialiser for
`arity_`; built over a cell holding 0, the rule with `e = [the, 0]` and
`f = [0]` (one non-positive symbol on each side) has `Arity() = 0`. -/
theorem Arity_after_ctor_counterexample :
    numVars [6, 0] = numVars [0] ∧ numVars [6, 0] = 1
      ∧ Arity (TRule.ctor_e_f_lhs 0 [6, 0] [0] (-1) : TRule Unit) = 0
      ∧ Arity (TRule.ctor_e_f_lhs 0 [6, 0] [0] (-1) : TRule Unit) ≠ (numVars [6, 0] : Int) := by
  refine ⟨by decide, by decide, rfl, by decide⟩

/-- C10, amended: for a rule built by `TRule(e, f, lhs)`, `Arity()` returns
the value held by the cached member `arity_`, which this constructor does not
set; when `e` and `f` contain the same number of non-positive symbols,
`Arity()` is that shared count exactly when `arity_` holds it. -/
theorem Arity_after_ctor [Inhabited SparseVector] (arity_indet : Int) (e f : List WordID)
    (lhs : WordID) (h : numVars e = numVars f) :
    Arity (TRule.ctor_e_f_lhs arity_indet e f lhs : TRule SparseVector) = arity_indet
      ∧ (Arity (TRule.ctor_e_f_lhs arity_indet e f lhs : TRule SparseVector) = (numVars e : Int)
          ↔ arity_indet = (numVars e : Int))
      ∧ (Arity (TRule.ctor_e_f_lhs arity_indet e f lhs : TRule SparseVector) = (numVars f : Int)
          ↔ arity_indet = (numVars e : Int)) := by
  refine ⟨rfl, Iff.rfl, ?_⟩
  rw [h]
  exact Iff.rfl

/-- The rule `e = [the, 0]`, `f = [0]` built over a cell holding 1, then over
a cell holding 0. -/
theorem Arity_after_ctor_witness :
    numVars [6, 0] = numVars [0]
      ∧ Arity (TRule.ctor_e_f_lhs 1 [6, 0] [0] (-1) : TRule Unit) = 1
      ∧ Arity (TRule.ctor_e_f_lhs 0 [6, 0] [0] (-1) : TRule Unit) = 0 :=
  ⟨by decide, (Arity_after_ctor 1 [6, 0] [0] (-1) (by decide)).1,
    (Arity_after_ctor 0 [6, 0] [0] (-1) (by decide)).1⟩

end AccessorClaims

/-! ## Construction and parsing: contracts -/

section ConstructionClaims

variable {SparseVector : Type}

/-- C11: construction defaults. Each of `TRule()`, `TRule(e)` and
`TRule(e, f, lhs)` yields a rule whose span is unset (`prev_i = prev_j = -1`)
and whose parent is absent; `TRule()` and `TRule(e)` yield `lhs_ = 0`;
`TRule(e)` stores `e` as the target with an empty source; `TRule(e, f, lhs)`
stores `e`, `f` and `lhs` unchanged. -/
theorem constructor_defaults [Inhabited SparseVector] (arity_indet : Int)
    (e f : List WordID) (lhs : WordID) :
    ((TRule.ctor arity_indet : TRule SparseVector).prev_i = -1
        ∧ (TRule.ctor arity_indet : TRule SparseVector).prev_j = -1
        ∧ (TRule.ctor arity_indet : TRule SparseVector).parent_rule_ = none
        ∧ (TRule.ctor arity_indet : TRule SparseVector).lhs_ = 0)
      ∧ ((TRule.ctor_e arity_indet e : TRule SparseVector).prev_i = -1
        ∧ (TRule.ctor_e arity_indet e : TRule SparseVector).prev_j = -1
        ∧ (TRule.ctor_e arity_indet e : TRule SparseVector).parent_rule_ = none
        ∧ (TRule.ctor_e arity_indet e : TRule SparseVector).lhs_ = 0
        ∧ (TRule.ctor_e arity_indet e : TRule SparseVector).e_ = e
        ∧ (TRule.ctor_e arity_indet e : TRule SparseVector).f_ = [])
      ∧ ((TRule.ctor_e_f_lhs arity_indet e f lhs : TRule SparseVector).prev_i = -1
        ∧ (TRule.ctor_e_f_lhs arity_indet e f lhs : TRule SparseVector).prev_j = -1
        ∧ (TRule.ctor_e_f_lhs arity_indet e f lhs : TRule SparseVector).parent_rule_ = none
        ∧ (TRule.ctor_e_f_lhs arity_indet e f lhs : TRule SparseVector).e_ = e
        ∧ (TRule.ctor_e_f_lhs arity_indet e f lhs : TRule SparseVector).f_ = f
        ∧ (TRule.ctor_e_f_lhs arity_indet e f lhs : TRule SparseVector).lhs_ = lhs
        ∧ GetLHS (TRule.ctor_e_f_lhs arity_indet e f lhs : TRule SparseVector) = lhs) :=
  ⟨⟨rfl, rfl, rfl, rfl⟩, ⟨rfl, rfl, rfl, rfl, rfl, rfl⟩, ⟨rfl, rfl, rfl, rfl, rfl, rfl, rfl⟩⟩

theorem neg_natCast_pred (k : Nat) (hk : 1 ≤ k) : -(((k - 1 : Nat) : Int)) = -((k : Int) - 1) := by
  omega

theorem neg_le_neg_pred (k n : Nat) (hk : k ≤ n) : -((n : Int) - 1) ≤ -((k : Int) - 1) := by
  omega

theorem neg_pred_lt_one (k : Nat) (hk : 1 ≤ k) : -((k : Int) - 1) < 1 := by omega

theorem neg_lt_one_of_pos (x : Int) (hx : 1 ≤ x) : -x < 1 := by omega



theorem numVars_encodeSource (ext : Externals SparseVector) (ts : List Token) :
    numVars (encodeSource ext ts) = (indicesOf ts).length := by
  induction ts with
  | nil => rfl
  | cons t ts ih =>
    cases t with
    | word w =>
      have h : ¬ ext.convert w < 1 := not_lt.2 (ext.convert_pos w)
      simp only [encodeSource, indicesOf, numVars_cons, if_neg h, ih, Nat.add_zero]
    | nt cat k =>
      have h : -(ext.convert cat) < 1 := neg_lt_one_of_pos _ (ext.convert_pos cat)
      simp only [encodeSource, indicesOf, numVars_cons, if_pos h, ih, List.length_cons]

theorem declaredPosition_mem (k : Nat) :
    ∀ (d : List Nat) (p : Nat), declaredPosition k d = some p → k ∈ d := by
  intro d
  induction d with
  | nil => intro p h; simp [declaredPosition] at h
  | cons a d ih =>
    intro p h
    by_cases ha : a = k
    · rw [ha]; exact List.mem_cons_self k d
    · simp only [declaredPosition, if_neg ha] at h
      cases hd : declaredPosition k d with
      | none => rw [hd] at h; cases h
      | some q => exact List.mem_cons_of_mem a (ih q hd)

theorem encodeTarget_some (ext : Externals SparseVector) (d : List Nat) :
    ∀ (ts : List Token) (e : List WordID), encodeTarget ext d ts = some e →
      numVars e = (indicesOf ts).length ∧ ∀ k ∈ indicesOf ts, k ∈ d := by
  intro ts
  induction ts with
  | nil =>
    intro e h
    simp only [encodeTarget] at h
    cases h
    exact ⟨rfl, fun k hk => absurd hk (List.not_mem_nil k)⟩
  | cons t ts ih =>
    intro e h
    cases t with
    | word w =>
      simp only [encodeTarget] at h
      cases he : encodeTarget ext d ts with
      | none => rw [he] at h; cases h
      | some e2 =>
        rw [he] at h
        cases h
        have hw : ¬ ext.convert w < 1 := not_lt.2 (ext.convert_pos w)
        obtain ⟨h1, h2⟩ := ih e2 he
        exact ⟨by simp only [numVars_cons, if_neg hw, h1, indicesOf, Nat.add_zero], h2⟩
    | nt cat k =>
      simp only [encodeTarget] at h
      cases hp : declaredPosition k d with
      | none => rw [hp] at h; cases h
      | some p =>
        cases he : encodeTarget ext d ts with
        | none => rw [hp, he] at h; cases h
        | some e2 =>
          rw [hp, he] at h
          cases h
          obtain ⟨h1, h2⟩ := ih e2 he
          refine ⟨?_, ?_⟩
          · simp only [numVars_cons, if_pos (neg_natCast_lt_one _ p rfl), h1, indicesOf,
              List.length_cons]
          · intro j hj
            rcases List.mem_cons.1 hj with rfl | hj
            · exact declaredPosition_mem _ d p hp
            · exact h2 j hj

theorem declaredPosition_range (k : Nat) :
    ∀ (n a : Nat), a ≤ k → k < a + n → declaredPosition k (List.range' a n) = some (k - a) := by
  intro n
  induction n with
  | zero => intro a h1 h2; omega
  | succ n ih =>
    intro a h1 h2
    rw [List.range'_succ]
    by_cases ha : a = k
    · simp [declaredPosition, ha]
    · simp only [declaredPosition, if_neg ha]
      rw [ih (a + 1) (by omega) (by omega)]
      simp only [Option.map_some']
      congr 1
      omega

theorem encodeTarget_inOrder (ext : Externals SparseVector) (n : Nat) :
    ∀ ts : List Token, (∀ k ∈ indicesOf ts, 1 ≤ k ∧ k ≤ n) →
      encodeTarget ext (List.range' 1 n) ts = some (ts.map (writtenEncoding ext)) := by
  intro ts
  induction ts with
  | nil => intro _; rfl
  | cons t ts ih =>
    intro h
    cases t with
    | word w =>
      simp only [encodeTarget, indicesOf] at h ⊢
      rw [ih h]; rfl
    | nt cat k =>
      have hk := h k (List.mem_cons_self k _)
      have hrest : ∀ j ∈ indicesOf ts, 1 ≤ j ∧ j ≤ n :=
        fun j hj => h j (List.mem_cons_of_mem k hj)
      simp only [encodeTarget]
      rw [declaredPosition_range k n 1 hk.1 (by omega), ih hrest]
      simp only [List.map_cons, writtenEncoding, neg_natCast_pred k hk.1]

theorem readToken_bracketed (w : List Char) (t : Token) (h : readToken w = some t) :
    (isBracketed w = true → ∃ cat k, t = Token.nt cat k)
      ∧ (isBracketed w = false → ∃ v, t = Token.word v) := by
  unfold readToken at h
  by_cases hb : isBracketed w = true
  · rw [if_pos hb] at h
    refine ⟨fun _ => ?_, fun hf => absurd hb (by simp [hf])⟩
    rcases hbody : bracketBody w with ⟨cat, _ | ds⟩
    · rw [hbody] at h; cases h
    · rw [hbody] at h
      simp only [] at h
      cases hi : parseIndex ds with
      | none => rw [hi] at h; cases h
      | some k =>
        rw [hi] at h
        cases h
        exact ⟨_, _, rfl⟩
  · rw [if_neg hb] at h
    cases h
    exact ⟨fun ht => absurd ht hb, fun _ => ⟨_, rfl⟩⟩

theorem readSide_cons (w : List Char) (ws : List (List Char)) (ts : List Token)
    (h : readSide (w :: ws) = some ts) :
    ∃ t rest, readToken w = some t ∧ readSide ws = some rest ∧ ts = t :: rest := by
  simp only [readSide] at h
  cases ht : readToken w with
  | none => rw [ht] at h; cases h
  | some t =>
    cases hr : readSide ws with
    | none => rw [ht, hr] at h; cases h
    | some rest =>
      rw [ht, hr] at h
      cases h
      exact ⟨t, rest, rfl, rfl, rfl⟩

theorem readSide_count :
    ∀ (ws : List (List Char)) (ts : List Token), readSide ws = some ts →
      (indicesOf ts).length = ws.countP isBracketed := by
  intro ws
  induction ws with
  | nil =>
    intro ts h
    simp only [readSide] at h
    cases h
    rfl
  | cons w ws ih =>
    intro ts h
    obtain ⟨t, rest, ht, hr, rfl⟩ := readSide_cons w ws ts h
    have hrest := ih rest hr
    have hb := readToken_bracketed w t ht
    by_cases hw : isBracketed w = true
    · obtain ⟨cat, k, rfl⟩ := hb.1 hw
      simp only [indicesOf, List.length_cons, hrest, List.countP_cons, hw, if_true]
    · have hw2 : isBracketed w = false := by simpa using hw
      obtain ⟨v, rfl⟩ := hb.2 hw2
      simp [indicesOf, hrest, List.countP_cons, hw2]

theorem readSide_indices :
    ∀ (ws : List (List Char)) (ts : List Token), readSide ws = some ts →
      indicesOf ts = writtenIndices ws := by
  intro ws
  induction ws with
  | nil =>
    intro ts h
    simp only [readSide] at h
    cases h
    rfl
  | cons w ws ih =>
    intro ts h
    obtain ⟨t, rest, ht, hr, rfl⟩ := readSide_cons w ws ts h
    have hrest := ih rest hr
    cases t with
    | word v => simp only [indicesOf, writtenIndices, ht, hrest]
    | nt cat j => simp only [indicesOf, writtenIndices, ht, hrest]

theorem buildSynchronous_some (ext : Externals SparseVector)
    (lhsW srcW tgtW : List (List Char)) (featW : Option (List (List Char)))
    (r : TRule SparseVector) (h : buildSynchronous ext lhsW srcW tgtW featW = some r) :
    ∃ src tgt, readSide srcW = some src ∧ readSide tgtW = some tgt
      ∧ encodeTarget ext (indicesOf src) tgt = some r.e_
      ∧ r.f_ = encodeSource ext src
      ∧ r.arity_ = (numVars r.f_ : Int)
      ∧ SanityCheck r = true := by
  unfold buildSynchronous at h
  cases h1 : readLHS lhsW with
  | none => simp [h1] at h
  | some lhs =>
    cases h2 : readSide srcW with
    | none => simp [h1, h2] at h
    | some src =>
      cases h3 : readSide tgtW with
      | none => simp [h1, h2, h3] at h
      | some tgt =>
        cases h4 : readFeatures ext featW with
        | none => simp [h1, h2, h3, h4] at h
        | some scores =>
          cases h5 : encodeTarget ext (indicesOf src) tgt with
          | none => simp [h1, h2, h3, h4, h5] at h
          | some e =>
            simp only [h1, h2, h3, h4, h5] at h
            split at h
            · rename_i hc
              cases h
              simp only [Bool.and_eq_true] at hc
              exact ⟨src, tgt, rfl, rfl, h5, rfl, rfl, hc.2⟩
            · cases h

theorem CreateRuleSynchronous_some (ext : Externals SparseVector) (rule : String)
    (r : TRule SparseVector) (h : CreateRuleSynchronous ext rule = some r) :
    ∃ lhsW featW,
      buildSynchronous ext lhsW (sourceWords rule) (targetWords rule) featW = some r := by
  unfold CreateRuleSynchronous at h
  unfold sourceWords targetWords
  generalize splitSections (splitWords rule.toList) = secs at h ⊢
  rcases secs with _ | ⟨a, _ | ⟨b, _ | ⟨c, _ | ⟨d, _ | ⟨e, rest⟩⟩⟩⟩⟩
  · cases h
  · cases h
  · cases h
  · exact ⟨a, none, h⟩
  · exact ⟨a, some d, h⟩
  · cases h

theorem buildSynchronous_consistent (ext : Externals SparseVector)
    (lhsW srcW tgtW : List (List Char)) (featW : Option (List (List Char)))
    (r : TRule SparseVector) (h : buildSynchronous ext lhsW srcW tgtW featW = some r) :
    numVars r.f_ = numVars r.e_ ∧ Arity r = (numVars r.f_ : Int)
      ∧ numVars r.f_ = srcW.countP isBracketed
      ∧ numVars r.e_ = tgtW.countP isBracketed
      ∧ ∀ k ∈ writtenIndices tgtW, k ∈ writtenIndices srcW := by
  obtain ⟨src, tgt, hs, ht, he, hf, ha, hsc⟩ := buildSynchronous_some ext lhsW srcW tgtW featW r h
  obtain ⟨hne, hdecl⟩ := encodeTarget_some ext (indicesOf src) tgt r.e_ he
  have hnf : numVars r.f_ = (indicesOf src).length := by rw [hf, numVars_encodeSource]
  have hae : r.arity_ = (numVars r.e_ : Int) := by
    simp only [SanityCheck, Bool.and_eq_true, decide_eq_true_eq] at hsc
    exact hsc.1.1
  have hfe : numVars r.f_ = numVars r.e_ := by
    have : (numVars r.f_ : Int) = (numVars r.e_ : Int) := by rw [← ha, hae]
    exact_mod_cast this
  refine ⟨hfe, ha, ?_, ?_, ?_⟩
  · rw [hnf, readSide_count srcW src hs]
  · rw [hne, readSide_count tgtW tgt ht]
  · intro k hk
    rw [← readSide_indices tgtW tgt ht] at hk
    rw [← readSide_indices srcW src hs]
    exact hdecl k hk

theorem numVars_map_writtenEncoding (ext : Externals SparseVector) :
    ∀ ts : List Token, (∀ k ∈ indicesOf ts, 1 ≤ k) →
      numVars (ts.map (writtenEncoding ext)) = (indicesOf ts).length := by
  intro ts
  induction ts with
  | nil => intro _; rfl
  | cons t ts ih =>
    intro h
    cases t with
    | word w =>
      have hw : ¬ ext.convert w < 1 := not_lt.2 (ext.convert_pos w)
      simp only [List.map_cons, writtenEncoding, indicesOf, numVars_cons, if_neg hw,
        Nat.add_zero] at h ⊢
      exact ih h
    | nt cat k =>
      have hk : -((k : Int) - 1) < 1 := neg_pred_lt_one k (h k (List.mem_cons_self k _))
      simp only [List.map_cons, writtenEncoding, indicesOf, numVars_cons, if_pos hk,
        List.length_cons]
      rw [ih fun j hj => h j (List.mem_cons_of_mem k hj)]

theorem mem_map_writtenEncoding (ext : Externals SparseVector) (c : WordID) (hc : c < 1) :
    ∀ ts : List Token, c ∈ ts.map (writtenEncoding ext) →
      ∃ k ∈ indicesOf ts, c = -((k : Int) - 1) := by
  intro ts
  induction ts with
  | nil => intro h; simp at h
  | cons t ts ih =>
    intro h
    rw [List.map_cons] at h
    rcases List.mem_cons.1 h with h | h
    · cases t with
      | word w =>
        exfalso
        rw [h] at hc
        exact absurd hc (not_lt.2 (ext.convert_pos w))
      | nt cat k => exact ⟨k, List.mem_cons_self k _, h⟩
    · obtain ⟨k, hk, hck⟩ := ih h
      cases t with
      | word w => exact ⟨k, hk, hck⟩
      | nt cat j => exact ⟨k, List.mem_cons_of_mem j hk, hck⟩

theorem buildSynchronous_wellFormed (ext : Externals SparseVector)
    (lhsW srcW tgtW : List (List Char)) (featW : Option (List (List Char)))
    (n : Nat) (src tgt : List Token)
    (hl : (readLHS lhsW).isSome = true) (hs : readSide srcW = some src)
    (ht : readSide tgtW = some tgt) (hfe : (readFeatures ext featW).isSome = true)
    (hsrc : indicesOf src = List.range' 1 n) (htgt : (indicesOf tgt).Perm (List.range' 1 n)) :
    ∃ r, buildSynchronous ext lhsW srcW tgtW featW = some r
      ∧ r.f_ = encodeSource ext src ∧ r.e_ = tgt.map (writtenEncoding ext)
      ∧ numVars r.f_ = n ∧ numVars r.e_ = n ∧ Arity r = (n : Int) := by
  obtain ⟨lhs, hlhs⟩ := Option.isSome_iff_exists.1 hl
  obtain ⟨scores, hscores⟩ := Option.isSome_iff_exists.1 hfe
  have hbound : ∀ k ∈ indicesOf tgt, 1 ≤ k ∧ k ≤ n := by
    intro k hk
    have := List.mem_range'_1.1 (htgt.mem_iff.1 hk)
    omega
  have henc := encodeTarget_inOrder ext n tgt hbound
  have hnf : numVars (encodeSource ext src) = n := by
    rw [numVars_encodeSource, hsrc, List.length_range']
  have hne : numVars (tgt.map (writtenEncoding ext)) = n := by
    rw [numVars_map_writtenEncoding ext tgt fun k hk => (hbound k hk).1, htgt.length_eq,
      List.length_range']
  have hall : (indicesOf src).all (fun k => decide (k ∈ indicesOf tgt)) = true := by
    rw [List.all_eq_true]
    intro k hk
    rw [hsrc] at hk
    simpa using htgt.mem_iff.2 hk
  have hsanity : SanityCheck (ComputeArity
      ({ e_ := tgt.map (writtenEncoding ext), f_ := encodeSource ext src,
         lhs_ := -(ext.convert lhs), scores_ := scores, arity_ := 0, parent_rule_ := none,
         prev_i := -1, prev_j := -1 } : TRule SparseVector)) = true := by
    simp only [SanityCheck, ComputeArity, Bool.and_eq_true, decide_eq_true_eq, List.all_eq_true]
    refine ⟨⟨by rw [hnf, hne], ?_⟩, neg_lt_one_of_pos _ (ext.convert_pos lhs)⟩
    intro c hc hc1
    obtain ⟨k, hk, rfl⟩ := mem_map_writtenEncoding ext c hc1 tgt hc
    rw [hnf]
    exact neg_le_neg_pred k n (hbound k hk).2
  refine ⟨ComputeArity
      ({ e_ := tgt.map (writtenEncoding ext), f_ := encodeSource ext src,
         lhs_ := -(ext.convert lhs), scores_ := scores, arity_ := 0, parent_rule_ := none,
         prev_i := -1, prev_j := -1 } : TRule SparseVector), ?_, rfl, rfl, hnf, hne, ?_⟩
  · unfold buildSynchronous
    simp only [hlhs, hs, ht, hscores, hsrc, henc]
    rw [hsrc] at hall
    rw [if_pos (by rw [hall, hsanity]; rfl)]
  · simp only [Arity, ComputeArity, hnf]

/-- C12: `CreateRuleSynchronous` re-encodes target placeholders by the
source-side index they name. Every rule it returns has as many non-positive
symbols in its source as in its target, that count is its arity and is the
number of bracketed tokens of the source section; and every well-formed line
with `n` placeholders parses to a rule of arity `n` whose target placeholder
written with index `k` is encoded as `-(k-1)`. -/
theorem CreateRuleSynchronous_encoding (ext : Externals SparseVector) (rule : String) :
    (∀ r, CreateRuleSynchronous ext rule = some r →
        numVars r.f_ = numVars r.e_ ∧ Arity r = (numVars r.f_ : Int)
          ∧ numVars r.f_ = (sourceWords rule).countP isBracketed)
      ∧ (∀ (n : Nat) (src tgt : List Token), WellFormedSynchronous ext rule n src tgt →
          ∃ r, CreateRuleSynchronous ext rule = some r
            ∧ numVars r.f_ = n ∧ numVars r.e_ = n ∧ Arity r = (n : Int)
            ∧ r.f_ = encodeSource ext src
            ∧ r.e_ = tgt.map (writtenEncoding ext)) := by
  constructor
  · intro r h
    obtain ⟨lhsW, featW, hb⟩ := CreateRuleSynchronous_some ext rule r h
    obtain ⟨h1, h2, h3, _, _⟩ := buildSynchronous_consistent ext _ _ _ _ r hb
    exact ⟨h1, h2, h3⟩
  · rintro n src tgt ⟨lhsW, srcW, tgtW, featW, hsec, hl, hs, ht, hfe, hsrc, htgt⟩
    obtain ⟨r, hr, hf, he, hnf, hne, ha⟩ :=
      buildSynchronous_wellFormed ext lhsW srcW tgtW featW n src tgt hl hs ht hfe hsrc htgt
    refine ⟨r, ?_, hnf, hne, ha, hf, he⟩
    unfold CreateRuleSynchronous
    rw [hsec]
    cases featW with
    | none => exact hr
    | some fw => exact hr

/-- The line `[X] ||| [X,1] DE [X,2] ||| [X,2] of the [X,1]` is well formed
and parses to arity 2, source `[-X, DE, -X]`, target `[-1, of, the, 0]`. -/
theorem CreateRuleSynchronous_encoding_witness :
    WellFormedSynchronous exampleExternals exampleLine 2
        [Token.nt "X" 1, Token.word "DE", Token.nt "X" 2]
        [Token.nt "X" 2, Token.word "of", Token.word "the", Token.nt "X" 1]
      ∧ ∃ r, CreateRuleSynchronous exampleExternals exampleLine = some r
          ∧ numVars r.f_ = 2 ∧ numVars r.e_ = 2 ∧ Arity r = 2
          ∧ r.f_ = [-1, 4, -1]
          ∧ r.e_ = [-1, 5, 6, 0] :=
  have hw : WellFormedSynchronous exampleExternals exampleLine 2
      [Token.nt "X" 1, Token.word "DE", Token.nt "X" 2]
      [Token.nt "X" 2, Token.word "of", Token.word "the", Token.nt "X" 1] :=
    ⟨_, _, _, none, rfl, rfl, rfl, rfl, rfl, rfl, by decide⟩
  ⟨hw, (CreateRuleSynchronous_encoding exampleExternals exampleLine).2 2 _ _ hw⟩

/-- C13: malformed rule text is rejected whole. When the numbers of bracketed
tokens of the source and target sections differ, or the target names an index
that no source token declares, `CreateRuleSynchronous` returns no rule. -/
theorem CreateRuleSynchronous_rejects_mismatch (ext : Externals SparseVector) (rule : String)
    (hbad : (sourceWords rule).countP isBracketed ≠ (targetWords rule).countP isBracketed
      ∨ ∃ k ∈ writtenIndices (targetWords rule), k ∉ writtenIndices (sourceWords rule)) :
    CreateRuleSynchronous ext rule = none := by
  cases hc : CreateRuleSynchronous ext rule with
  | none => rfl
  | some r =>
    exfalso
    obtain ⟨lhsW, featW, hb⟩ := CreateRuleSynchronous_some ext rule r hc
    obtain ⟨h1, _, h3, h4, h5⟩ := buildSynchronous_consistent ext _ _ _ _ r hb
    rcases hbad with hcount | ⟨k, hk, hnone⟩
    · exact hcount (by rw [← h3, ← h4, h1])
    · exact hnone (h5 k hk)

/-- A target one placeholder short, and a target naming the undeclared
index 3: neither line yields a rule. -/
theorem CreateRuleSynchronous_rejects_mismatch_witness :
    (sourceWords shortTargetLine).countP isBracketed
        ≠ (targetWords shortTargetLine).countP isBracketed
      ∧ (∃ k ∈ writtenIndices (targetWords undeclaredIndexLine),
          k ∉ writtenIndices (sourceWords undeclaredIndexLine))
      ∧ CreateRuleSynchronous exampleExternals shortTargetLine = none
      ∧ CreateRuleSynchronous exampleExternals undeclaredIndexLine = none :=
  ⟨by decide, ⟨3, by decide, by decide⟩,
    CreateRuleSynchronous_rejects_mismatch exampleExternals shortTargetLine (Or.inl (by decide)),
    CreateRuleSynchronous_rejects_mismatch exampleExternals undeclaredIndexLine
      (Or.inr ⟨3, by decide, by decide⟩)⟩

end ConstructionClaims

/-! ## Accessors and substitution: behaviour -/

section BehaviourClaims

variable {SparseVector : Type}

theorem numVars_singleton (c : WordID) : numVars [c] = if c < 1 then 1 else 0 := by
  simp [numVars, isVar, List.countP_cons]

/-- C14: for a rule whose cached arity is the number of non-positive symbols
of `f_`, `IsUnary()` is true if and only if `f_` is exactly one symbol and that
symbol is a placeholder; equivalently if and only if `Arity() = 1` and
`FLength() = 1`, in which case `FWords() = 0`; replacing `e_` does not change
`IsUnary()`. -/
theorem IsUnary_iff_single_placeholder (r : TRule SparseVector)
    (h : r.arity_ = (numVars r.f_ : Int)) :
    (IsUnary r = true ↔ ∃ c, r.f_ = [c] ∧ c < 1)
      ∧ (IsUnary r = true ↔ Arity r = 1 ∧ FLength r = 1)
      ∧ (IsUnary r = true → FWords r = 0)
      ∧ (∀ e : List WordID, IsUnary { r with e_ := e } = IsUnary r) := by
  have h2 : IsUnary r = true ↔ Arity r = 1 ∧ FLength r = 1 := by
    simp [IsUnary, FLength]
  refine ⟨?_, h2, ?_, fun _ => rfl⟩
  · rw [h2]
    constructor
    · rintro ⟨ha, hl⟩
      have hl1 : r.f_.length = 1 := by
        simp only [FLength] at hl
        exact_mod_cast hl
      obtain ⟨c, hc⟩ := List.length_eq_one.1 hl1
      refine ⟨c, hc, ?_⟩
      simp only [Arity, h, hc, numVars_singleton] at ha
      by_contra hn
      rw [if_neg hn] at ha
      exact absurd ha (by decide)
    · rintro ⟨c, hc, hc1⟩
      simp [Arity, FLength, h, hc, numVars_singleton, hc1]
  · intro hu
    obtain ⟨ha, hl⟩ := h2.1 hu
    simp [FWords, ha, hl]

/-- The rule with source `[0]` and target `[the, 0]`: unary, `FWords() = 0`,
whatever the two symbols of its target. -/
theorem IsUnary_iff_single_placeholder_witness :
    wideTargetRule.arity_ = (numVars wideTargetRule.f_ : Int)
      ∧ IsUnary wideTargetRule = true
      ∧ (∃ c, wideTargetRule.f_ = [c] ∧ c < 1)
      ∧ FWords wideTargetRule = 0
      ∧ wideTargetRule.e_.length = 2 :=
  ⟨by decide, rfl,
    (IsUnary_iff_single_placeholder wideTargetRule (by decide)).1.1 rfl,
    (IsUnary_iff_single_placeholder wideTargetRule (by decide)).2.2.1 rfl, rfl⟩

theorem toNat_neg_neg_natCast (k : Nat) : (-(-(k : Int))).toNat = k := by omega

theorem neg_toNat_neg (c : Int) (hc : c < 1) : -(((-c).toNat : Nat) : Int) = c := by omega

theorem filter_isVar_cons_pos (c : WordID) (s : List WordID) (hc : c < 1) :
    (c :: s).filter isVar = c :: s.filter isVar := by
  simp [isVar, hc]

theorem filter_isVar_cons_neg (c : WordID) (s : List WordID) (hc : ¬ c < 1) :
    (c :: s).filter isVar = s.filter isVar := by
  simp [isVar, hc]

theorem numVars_eq_length_filter (s : List WordID) : numVars s = (s.filter isVar).length := by
  simp [numVars, List.countP_eq_length_filter]

theorem substFrom_eq_substByValue (bs : List (List WordID)) :
    ∀ (s : List WordID) (k : Nat),
      s.filter isVar = (List.range' k (numVars s)).map (fun (i : Nat) => -(i : Int)) →
      substFrom bs k s = substByValue bs s := by
  intro s
  induction s with
  | nil => intro k _; simp [substFrom_nil, substByValue]
  | cons c rest ih =>
    intro k h
    rw [substFrom_cons, substByValue_cons]
    by_cases hc : c < 1
    · rw [filter_isVar_cons_pos c rest hc, numVars_cons, if_pos hc, List.range'_succ,
        List.map_cons] at h
      have hck : c = -(k : Int) := (List.cons.inj h).1
      have hrest := (List.cons.inj h).2
      rw [if_pos hc, if_pos hc, if_pos hc, ih (k + 1) hrest, hck, toNat_neg_neg_natCast]
    · rw [filter_isVar_cons_neg c rest hc, numVars_cons, if_neg hc] at h
      rw [if_neg hc, if_neg hc, if_neg hc]
      exact congrArg _ (ih k h)

theorem inOrder_filter_eq (s : List WordID)
    (hord : ∀ (k : Nat) (hk : k < (s.filter isVar).length),
      (s.filter isVar)[k] = -(k : Int)) :
    s.filter isVar = (List.range' 0 (numVars s)).map (fun (i : Nat) => -(i : Int)) := by
  apply List.ext_getElem
  · simp [numVars_eq_length_filter]
  · intro i h1 h2
    rw [hord i h1]
    simp

/-- C15: by-value and by-position substitution agree on in-order sequences.
For a sequence `s` whose `k`-th (0-based) non-positive symbol is `-k` for every
`k`, and as many bindings as `s` has non-positive symbols, `ESubstitute` on a
rule with `e_ = s` and `FSubstitute` on a rule with `f_ = s` both return, with
the same output. -/
theorem substitute_agree_on_in_order (s : List WordID) (bindings : List (List WordID))
    (out : List WordID) (r1 r2 : TRule SparseVector)
    (he : r1.e_ = s) (hf : r2.f_ = s)
    (hord : ∀ (k : Nat) (hk : k < (s.filter isVar).length),
      (s.filter isVar)[k] = -(k : Int))
    (hB : bindings.length = numVars s) :
    ∃ o, ESubstitute r1 bindings out = .ok o ∧ FSubstitute r2 bindings out = .ok o := by
  have hfil := inOrder_filter_eq s hord
  have hrange : ∀ c ∈ r1.e_, c < 1 → -c < (bindings.length : Int) := by
    intro c hc hc1
    rw [he] at hc
    have hm : c ∈ s.filter isVar := List.mem_filter.2 ⟨hc, by simp [isVar, hc1]⟩
    rw [hfil] at hm
    obtain ⟨i, hi, rfl⟩ := List.mem_map.1 hm
    have hi2 := (List.mem_range'_1.1 hi).2
    rw [hB, neg_neg]
    exact_mod_cast (by omega : i < numVars s)
  refine ⟨substByValue bindings s, ?_, ?_⟩
  · rw [ESubstitute, ESubstituteScan_inRange r1 bindings out hrange, he, if_pos hB.symm]
    rfl
  · rw [FSubstitute, FSubstituteScan_eq, hf, if_pos hB.symm,
      ← substFrom_zero, substFrom_eq_substByValue bindings s 0 hfil]
    rfl

/-- The in-order sequence `[0, of, -1]` on both sides, with two bindings. -/
theorem substitute_agree_on_in_order_witness :
    inOrderRule.e_ = [0, 5, -1] ∧ inOrderRule.f_ = [0, 5, -1]
      ∧ exampleBindings.length = numVars [0, 5, -1]
      ∧ ∃ o, ESubstitute inOrderRule exampleBindings [] = .ok o
          ∧ FSubstitute inOrderRule exampleBindings [] = .ok o :=
  ⟨rfl, rfl, by decide,
    substitute_agree_on_in_order [0, 5, -1] exampleBindings [] inOrderRule inOrderRule
      rfl rfl (by decide) (by decide)⟩

theorem substByValue_self (bs : List (List WordID)) :
    ∀ s : List WordID, (∀ c ∈ s, c < 1 → bs.getD (-c).toNat [] = [c]) →
      substByValue bs s = s := by
  intro s
  induction s with
  | nil => intro _; rfl
  | cons c rest ih =>
    intro h
    rw [substByValue_cons, ih fun d hd => h d (List.mem_cons_of_mem c hd)]
    by_cases hc : c < 1
    · rw [if_pos hc, h c (List.mem_cons_self c rest) hc]; rfl
    · rw [if_neg hc]; rfl

theorem selfBindings_length (n : Nat) : (selfBindings n).length = n := by
  simp [selfBindings]

theorem selfBindings_getD (n : Nat) (c : Int) (hc : c < 1) (h : -c < (n : Int)) :
    (selfBindings n).getD (-c).toNat [] = [c] := by
  have hlt : (-c).toNat < n := toNat_neg_lt c n hc h
  have hi : ∀ i : Nat, i < n → (selfBindings n).getD i [] = [-(i : Int)] := by
    intro i hi
    simp [selfBindings, List.getD_eq_getElem?_getD, List.getElem?_eq_getElem, hi]
  rw [hi _ hlt, neg_toNat_neg c hc]

theorem substFrom_own (f : List WordID) :
    ∀ (pre : List (List WordID)), substFrom (pre ++ ownBindings f) pre.length f = f := by
  induction f with
  | nil => intro pre; simp [substFrom_nil]
  | cons c rest ih =>
    intro pre
    rw [substFrom_cons]
    by_cases hc : c < 1
    · have hb : pre ++ ownBindings (c :: rest) = (pre ++ [[c]]) ++ ownBindings rest := by
        simp [ownBindings, filter_isVar_cons_pos c rest hc]
      have hg : (pre ++ ownBindings (c :: rest)).getD pre.length [] = [c] := by
        rw [List.getD_eq_getElem?_getD, List.getElem?_append_right (le_refl _)]
        simp [ownBindings, filter_isVar_cons_pos c rest hc]
      rw [if_pos hc, if_pos hc, hg, hb]
      have := ih (pre ++ [[c]])
      simp only [List.length_append, List.length_singleton] at this
      rw [this]; rfl
    · have hb : ownBindings (c :: rest) = ownBindings rest := by
        simp [ownBindings, filter_isVar_cons_neg c rest hc]
      rw [if_neg hc, if_neg hc, hb, Nat.add_zero, ih pre]; rfl

/-- C16, as stated, fails: the target `[0, -1]` contains each of the encodings
`0 .. -(n-1)` exactly once for `n = 1`, yet `ESubstitute` with the one binding
`[0]` stops at the out-of-range read for the symbol `-1` and does not return
the target. -/
theorem substitute_self_counterexample :
    (∀ k : Nat, k < 1 → strayVarRule.e_.count (-(k : Int)) = 1)
      ∧ selfBindings 1 = [[0]]
      ∧ ESubstitute strayVarRule (selfBindings 1) [] = .error .outOfRange
      ∧ ESubstitute strayVarRule (selfBindings 1) [] ≠ .ok strayVarRule.e_ := by
  refine ⟨by decide, rfl, rfl, ?_⟩
  intro h
  cases h

/-- C16, amended: substituting every placeholder by itself is the identity.
For a target `e_` containing each encoding `0, -1, ..., -(n-1)` exactly once
and no other non-positive symbol, `ESubstitute` with `bindings[k] = [-k]`
returns `e_`; for every source `f_`, `FSubstitute` with
`bindings[i] = [the i-th non-positive symbol of f_]` returns `f_`; a side with
no placeholder and an empty bindings list is returned verbatim. -/
theorem substitute_self_is_identity (r : TRule SparseVector) (out : List WordID) (n : Nat) :
    ((∀ k : Nat, k < n → r.e_.count (-(k : Int)) = 1) →
        (∀ c ∈ r.e_, c < 1 → -c < (n : Int)) →
        ESubstitute r (selfBindings n) out = .ok r.e_)
      ∧ FSubstitute r (ownBindings r.f_) out = .ok r.f_
      ∧ (numVars r.e_ = 0 → ESubstitute r [] out = .ok r.e_)
      ∧ (numVars r.f_ = 0 → FSubstitute r [] out = .ok r.f_) := by
  have hEgen : ∀ m : Nat, (∀ k : Nat, k < m → r.e_.count (-(k : Int)) = 1) →
      (∀ c ∈ r.e_, c < 1 → -c < (m : Int)) →
      ESubstitute r (selfBindings m) out = .ok r.e_ := by
    intro m hE hE2
    have hn : numVars r.e_ = (selfBindings m).length := by
      rw [selfBindings_length]; exact numVars_eq_of_each_once r.e_ m hE hE2
    have hrange : ∀ c ∈ r.e_, c < 1 → -c < ((selfBindings m).length : Int) := by
      rw [selfBindings_length]; exact hE2
    rw [ESubstitute, ESubstituteScan_inRange r _ out hrange, if_pos hn]
    show Except.ok (substByValue (selfBindings m) r.e_) = _
    rw [substByValue_self _ _ fun c hc hc1 => selfBindings_getD m c hc1 (hE2 c hc hc1)]
  have hF : FSubstitute r (ownBindings r.f_) out = .ok r.f_ := by
    have hn : numVars r.f_ = (ownBindings r.f_).length := by
      simp [ownBindings, numVars_eq_length_filter]
    rw [FSubstitute, FSubstituteScan_eq, if_pos hn]
    show Except.ok (substByPosition (ownBindings r.f_) r.f_) = _
    have := substFrom_own r.f_ []
    simp only [List.nil_append, List.length_nil] at this
    rw [← substFrom_zero, this]
  refine ⟨hEgen n, hF, ?_, ?_⟩
  · intro h0
    have h1 := hEgen 0 (fun k hk => absurd hk (Nat.not_lt_zero k)) (by
      intro c hc hc1
      have hpos : 0 < numVars r.e_ :=
        List.countP_pos_iff.2 ⟨c, hc, by simp [isVar, hc1]⟩
      omega)
    exact h1
  · intro h0
    have hnil : ownBindings r.f_ = [] := by
      have : (r.f_.filter isVar).length = 0 := by rw [← numVars_eq_length_filter]; exact h0
      simp [ownBindings, List.length_eq_zero.1 this]
    rw [← hnil]; exact hF

/-- The running example: its target under `[[0], [-1]]` and the source
`[-5, DE, -3]` under `[[-5], [-3]]` come back unchanged. -/
theorem substitute_self_is_identity_witness :
    (∀ k : Nat, k < 2 → exampleRule.e_.count (-(k : Int)) = 1)
      ∧ (∀ c ∈ exampleRule.e_, c < 1 → -c < ((2 : Nat) : Int))
      ∧ selfBindings 2 = [[0], [-1]]
      ∧ ESubstitute exampleRule [[0], [-1]] [] = .ok [-1, 5, 6, 0]
      ∧ ownBindings exampleRuleRenamed.f_ = [[-5], [-3]]
      ∧ FSubstitute exampleRuleRenamed [[-5], [-3]] [] = .ok [-5, 4, -3] :=
  ⟨by decide, by decide, rfl,
    (substitute_self_is_identity exampleRule [] 2).1 (by decide) (by decide), rfl,
    (substitute_self_is_identity exampleRuleRenamed [] 2).2.1⟩

theorem neg_lt_of_toNat_lt (c : Int) (n : Nat) (hc : c < 1) (h : (-c).toNat < n) :
    -c < (n : Int) := by omega

theorem numWords_cons (c : WordID) (s : List WordID) :
    numWords (c :: s) = numWords s + (if c < 1 then 0 else 1) := by
  by_cases hc : c < 1
  · have h1 : ¬ (1 ≤ c) := not_le.2 hc
    simp [numWords, List.countP_cons, hc, h1]
  · have h1 : 1 ≤ c := not_lt.1 hc
    simp [numWords, List.countP_cons, hc, h1]

theorem length_substByValue (bs : List (List WordID)) (e : List WordID) :
    (substByValue bs e).length
      = numWords e
        + (((e.filter isVar).map fun c => (-c).toNat).map fun i => (bs.getD i []).length).sum := by
  induction e with
  | nil => rfl
  | cons c rest ih =>
    rw [substByValue_cons, List.length_append, ih, numWords_cons]
    by_cases hc : c < 1
    · rw [if_pos hc, if_pos hc, filter_isVar_cons_pos c rest hc]
      simp only [List.map_cons, List.sum_cons]
      omega
    · rw [if_neg hc, if_neg hc, filter_isVar_cons_neg c rest hc]
      simp only [List.length_singleton]
      omega

theorem reads_perm_range (e : List WordID) (n : Nat) (hn : numVars e = n)
    (h1 : ∀ k : Nat, k < n → e.count (-(k : Int)) = 1) :
    (List.range n).Perm ((e.filter isVar).map fun c => (-c).toNat) := by
  apply List.Subperm.perm_of_length_le
  · apply List.subperm_of_subset (List.nodup_range n)
    intro k hk
    have hk1 : k < n := List.mem_range.1 hk
    apply List.count_pos_iff.1
    rw [count_reads_eq, h1 k hk1]
    exact Nat.one_pos
  · simp [← numVars_eq_length_filter, hn]

theorem inRange_of_each_once (e : List WordID) (n : Nat) (hn : numVars e = n)
    (h1 : ∀ k : Nat, k < n → e.count (-(k : Int)) = 1) :
    ∀ c ∈ e, c < 1 → -c < (n : Int) := by
  intro c hc hc1
  have hm : (-c).toNat ∈ (e.filter isVar).map fun c => (-c).toNat :=
    List.mem_map.2 ⟨c, List.mem_filter.2 ⟨hc, by simp [isVar, hc1]⟩, rfl⟩
  have := (reads_perm_range e n hn h1).mem_iff.2 hm
  exact neg_lt_of_toNat_lt c n hc1 (List.mem_range.1 this)

theorem map_getD_range (bs : List (List WordID)) :
    (List.range bs.length).map (fun i => (bs.getD i []).length) = bs.map List.length := by
  apply List.ext_getElem
  · simp
  · intro i h1 h2
    have hi : i < bs.length := by simpa using h2
    simp [List.getD_eq_getElem?_getD, List.getElem?_eq_getElem, hi]

theorem length_substFrom (bs : List (List WordID)) :
    ∀ (f : List WordID) (k : Nat), k + numVars f ≤ bs.length →
      (substFrom bs k f).length
        = numWords f + (((bs.drop k).take (numVars f)).map List.length).sum := by
  intro f
  induction f with
  | nil => intro k _; simp [substFrom_nil, numWords, numVars]
  | cons c rest ih =>
    intro k h
    rw [numVars_cons] at h
    rw [substFrom_cons, List.length_append, numWords_cons, numVars_cons]
    by_cases hc : c < 1
    · rw [if_pos hc] at h
      have hk : k < bs.length := by omega
      simp only [if_pos hc]
      rw [ih (k + 1) (by omega), List.drop_eq_getElem_cons hk, List.take_succ_cons]
      simp only [List.map_cons, List.sum_cons, List.getD_eq_getElem?_getD,
        List.getElem?_eq_getElem hk, Option.getD_some]
      omega
    · rw [if_neg hc] at h
      simp only [if_neg hc, Nat.add_zero]
      rw [ih k (by omega)]
      simp only [List.length_singleton, Nat.add_zero]
      omega

/-- C17: output length. For a rule whose cached arity `n` is the number of
non-positive symbols of each side, whose target contains each of
`0, -1, ..., -(n-1)` exactly once, and `n` bindings, both substitutions return;
the `ESubstitute` output has length `EWords()` plus the total length of the
bindings, the `FSubstitute` output `FWords()` plus the same total. -/
theorem substitute_output_length (r : TRule SparseVector) (bindings : List (List WordID))
    (out : List WordID) (n : Nat)
    (ha : r.arity_ = (n : Int))
    (hne : numVars r.e_ = n) (hnf : numVars r.f_ = n)
    (hE : ∀ k : Nat, k < n → r.e_.count (-(k : Int)) = 1)
    (hB : bindings.length = n) :
    ∃ oe os : List WordID,
      ESubstitute r bindings out = .ok oe ∧ FSubstitute r bindings out = .ok os
        ∧ (oe.length : Int) = EWords r + (bindingsLength bindings : Int)
        ∧ (os.length : Int) = FWords r + (bindingsLength bindings : Int) := by
  subst hB
  have hrange := inRange_of_each_once r.e_ _ hne hE
  have hse := ESubstituteScan_inRange r bindings out hrange
  rw [if_pos hne] at hse
  have hsf := FSubstituteScan_eq r bindings out
  rw [if_pos hnf] at hsf
  refine ⟨substByValue bindings r.e_, substByPosition bindings r.f_, ?_, ?_, ?_, ?_⟩
  · rw [ESubstitute, hse]; rfl
  · rw [FSubstitute, hsf]; rfl
  · have hp := (reads_perm_range r.e_ _ hne hE).map fun i => (bindings.getD i []).length
    rw [length_substByValue, ← hp.sum_eq, map_getD_range]
    have hl := length_eq_numWords_add_numVars r.e_
    simp only [EWords, ELength, Arity, ha, hl, bindingsLength, hne]
    push_cast
    ring
  · have hlen := length_substFrom bindings r.f_ 0 (by omega)
    rw [substFrom_zero, hnf, List.drop_zero, List.take_length] at hlen
    rw [hlen]
    have hl := length_eq_numWords_add_numVars r.f_
    simp only [FWords, FLength, Arity, ha, hl, bindingsLength, hnf]
    push_cast
    ring

/-- The running example with bindings of lengths 3 and 1. -/
theorem substitute_output_length_witness :
    exampleRule.arity_ = ((2 : Nat) : Int)
      ∧ numVars exampleRule.e_ = 2 ∧ numVars exampleRule.f_ = 2
      ∧ (∀ k : Nat, k < 2 → exampleRule.e_.count (-(k : Int)) = 1)
      ∧ [[7, 7, 7], [(8 : WordID)]].length = 2
      ∧ ∃ oe os : List WordID,
        ESubstitute exampleRule [[7, 7, 7], [8]] [] = .ok oe
          ∧ FSubstitute exampleRule [[7, 7, 7], [8]] [] = .ok os
          ∧ (oe.length : Int) = EWords exampleRule + (bindingsLength [[7, 7, 7], [8]] : Int)
          ∧ (os.length : Int) = FWords exampleRule + (bindingsLength [[7, 7, 7], [8]] : Int) :=
  ⟨by decide, by decide, by decide, by decide, by decide,
    substitute_output_length exampleRule [[7, 7, 7], [8]] [] 2
      (by decide) (by decide) (by decide) (by decide) (by decide)⟩

theorem ESubstituteLoop_positive (bs : List (List WordID))
    (hbs : ∀ b ∈ bs, ∀ x ∈ b, (1 : Int) ≤ x) :
    ∀ (e : List WordID) (s t : Scan), ESubstituteLoop bs e s = .ok t →
      (∀ x ∈ s.result, (1 : Int) ≤ x) → ∀ x ∈ t.result, (1 : Int) ≤ x := by
  intro e
  induction e with
  | nil =>
    intro s t h hs
    simp only [ESubstituteLoop] at h
    cases h
    exact hs
  | cons c rest ih =>
    intro s t h hs
    by_cases hc : c < 1
    · simp only [ESubstituteLoop, if_pos hc] at h
      cases hb : bs[(-c).toNat]? with
      | none => rw [hb] at h; cases h
      | some v =>
        rw [hb] at h
        refine ih _ t h ?_
        intro x hx
        rcases List.mem_append.1 hx with hx | hx
        · exact hs x hx
        · exact hbs v (List.getElem?_mem hb) x hx
    · simp only [ESubstituteLoop, if_neg hc] at h
      refine ih _ t h ?_
      intro x hx
      rcases List.mem_append.1 hx with hx | hx
      · exact hs x hx
      · rw [List.mem_singleton.1 hx]; exact not_lt.1 hc

theorem FSubstituteLoop_positive (bs : List (List WordID))
    (hbs : ∀ b ∈ bs, ∀ x ∈ b, (1 : Int) ≤ x) :
    ∀ (f : List WordID) (s t : Scan), FSubstituteLoop bs f s = .ok t →
      (∀ x ∈ s.result, (1 : Int) ≤ x) → ∀ x ∈ t.result, (1 : Int) ≤ x := by
  intro f
  induction f with
  | nil =>
    intro s t h hs
    simp only [FSubstituteLoop] at h
    cases h
    exact hs
  | cons c rest ih =>
    intro s t h hs
    by_cases hc : c < 1
    · simp only [FSubstituteLoop, if_pos hc] at h
      cases hb : bs[s.vc]? with
      | none => rw [hb] at h; cases h
      | some v =>
        rw [hb] at h
        refine ih _ t h ?_
        intro x hx
        rcases List.mem_append.1 hx with hx | hx
        · exact hs x hx
        · exact hbs v (List.getElem?_mem hb) x hx
    · simp only [FSubstituteLoop, if_neg hc] at h
      refine ih _ t h ?_
      intro x hx
      rcases List.mem_append.1 hx with hx | hx
      · exact hs x hx
      · rw [List.mem_singleton.1 hx]; exact not_lt.1 hc

/-- C18: placeholder-free bindings give placeholder-free output. When every
symbol of every binding is `>= 1`, every symbol of an output returned by
`ESubstitute` or by `FSubstitute` is `>= 1`. -/
theorem substitute_output_placeholder_free (r : TRule SparseVector)
    (bindings : List (List WordID)) (out : List WordID)
    (hbs : ∀ b ∈ bindings, ∀ x ∈ b, (1 : Int) ≤ x) :
    (∀ o, ESubstitute r bindings out = .ok o → ∀ x ∈ o, (1 : Int) ≤ x)
      ∧ (∀ o, FSubstitute r bindings out = .ok o → ∀ x ∈ o, (1 : Int) ≤ x) := by
  constructor
  · intro o h
    simp only [ESubstitute, ESubstituteScan] at h
    cases hl : ESubstituteLoop bindings r.e_ ⟨0, vector_clear out, []⟩ with
    | error e => rw [hl] at h; cases h
    | ok t =>
      rw [hl] at h
      by_cases hv : t.vc = bindings.length
      · simp only [hv, if_true] at h
        cases h
        exact ESubstituteLoop_positive bindings hbs r.e_ _ t hl (by simp [vector_clear])
      · simp only [hv, if_false] at h
        cases h
  · intro o h
    simp only [FSubstitute, FSubstituteScan] at h
    cases hl : FSubstituteLoop bindings r.f_ ⟨0, vector_clear out, []⟩ with
    | error e => rw [hl] at h; cases h
    | ok t =>
      rw [hl] at h
      by_cases hv : t.vc = bindings.length
      · simp only [hv, if_true] at h
        cases h
        exact FSubstituteLoop_positive bindings hbs r.f_ _ t hl (by simp [vector_clear])
      · simp only [hv, if_false] at h
        cases h

/-- The running example with the bindings `[[casa], [grande]]`. -/
theorem substitute_output_placeholder_free_witness :
    (∀ b ∈ exampleBindings, ∀ x ∈ b, (1 : Int) ≤ x)
      ∧ ESubstitute exampleRule exampleBindings [] = .ok [8, 5, 6, 7]
      ∧ FSubstitute exampleRule exampleBindings [] = .ok [7, 4, 8]
      ∧ (∀ x ∈ ([8, 5, 6, 7] : List WordID), (1 : Int) ≤ x)
      ∧ (∀ x ∈ ([7, 4, 8] : List WordID), (1 : Int) ≤ x) :=
  ⟨by decide, rfl, rfl,
    (substitute_output_placeholder_free exampleRule exampleBindings [] (by decide)).1 _ rfl,
    (substitute_output_placeholder_free exampleRule exampleBindings [] (by decide)).2 _ rfl⟩

/-- C19: `DummyRule()` is an initialized rule whose target is `[0]`, whose
source is empty, whose `lhs_` is 0 and whose span is unset; substitution treats
its one target symbol as a placeholder: `ESubstitute` with the single binding
`b` returns `b`. -/
theorem DummyRule_spec [Inhabited SparseVector] (arity_indet : Int) (b out : List WordID) :
    Initialized (DummyRule arity_indet : TRule SparseVector) = true
      ∧ (DummyRule arity_indet : TRule SparseVector).e_ = [0]
      ∧ (DummyRule arity_indet : TRule SparseVector).f_ = []
      ∧ (DummyRule arity_indet : TRule SparseVector).lhs_ = 0
      ∧ (DummyRule arity_indet : TRule SparseVector).prev_i = -1
      ∧ (DummyRule arity_indet : TRule SparseVector).prev_j = -1
      ∧ ESubstitute (DummyRule arity_indet : TRule SparseVector) [b] out = .ok b :=
  ⟨rfl, rfl, rfl, rfl, rfl, rfl, rfl⟩

end BehaviourClaims

end Cdec
